import Mathlib

/-!
Verification of the Sonic Cipher audio steganography engine
(`Sonic_Cipher/audio_stego.py`).

The engine is shallowly embedded below.  Bytes are modelled as `Nat`
values (with `< 256` hypotheses where byte-ness matters), frame buffers as
`List Nat`, Python's `int` as `Nat`/`Int`, and fallible operations as
`Except StegoErr`.  File-system access (path validation, reading and
writing WAV containers) is abstracted: the WAV container checks performed
by `_read_wave` act on an explicit `WavParams` record, and the single
output write performed by `hide_data` is modelled as the returned
`(params, frames)` pair together with a write trace (`hideWrites`).

The pseudo-random machinery the source relies on (CPython's
`random.Random`, i.e. MT19937 with `_randbelow_with_getrandbits`, and
`hashlib.pbkdf2_hmac("sha256", ...)`) is embedded faithfully as well,
since the keyed permutation is central to the claims.
-/

namespace SonicCipher

/-- Errors raised by the engine.  The source uses a single `StegoError`
exception class carrying a message string; we keep the messages. -/
abbrev StegoErr := String

/-- `DELIMITER = b"###END###"` (9 bytes). -/
def DELIMITER : List Nat := [35, 35, 35, 69, 78, 68, 35, 35, 35]

/-- `SUPPORTED_SAMPLE_WIDTHS = {1, 2, 3, 4}`. -/
def SUPPORTED_SAMPLE_WIDTHS : List Nat := [1, 2, 3, 4]

/-- `MIN_PASSWORD_LENGTH = 8`. -/
def MIN_PASSWORD_LENGTH : Nat := 8

/-- `EMBED_KDF_SALT = b"SonicCipher|Embedding"` as bytes. -/
def EMBED_KDF_SALT : List Nat :=
  [83, 111, 110, 105, 99, 67, 105, 112, 104, 101, 114, 124,
   69, 109, 98, 101, 100, 100, 105, 110, 103]

/-- `EMBED_KDF_ITERATIONS = 120_000`. -/
def EMBED_KDF_ITERATIONS : Nat := 120000

/-! ## Bit packing (`_bytes_to_bits`, `_bits_to_byte`) -/

/-- The eight bits of one byte, most significant first: the inner loop
`for bit_index in range(7, -1, -1): yield (byte_val >> bit_index) & 1`
of `_bytes_to_bits`. -/
def byteToBits (b : Nat) : List Nat :=
  [7, 6, 5, 4, 3, 2, 1, 0].map (fun k => (b >>> k) &&& 1)

/-- `_bytes_to_bits(data)`: bits MSB-first, 8 per byte, in byte order. -/
def bytesToBits (data : List Nat) : List Nat :=
  data.flatMap byteToBits

/-- `_bits_to_byte(bits)`: `value = (value << 1) | bit` folded over the bits. -/
def bitsToByte (bits : List Nat) : Nat :=
  bits.foldl (fun value bit => (value <<< 1) ||| bit) 0

/-! ## SHA-256, HMAC-SHA256, PBKDF2 (semantics of `hashlib.pbkdf2_hmac`)

These definitions are only ever used symbolically: no claim depends on a
concrete digest value, but the seed derivation of the source calls
`hashlib.pbkdf2_hmac("sha256", password, salt, 120000, dklen=32)`, so the
function is embedded in full.  32-bit words are `Nat` values reduced with
`% 2 ^ 32` where overflow matters. -/

/-- Reduce modulo `2^32` (C `uint32_t` arithmetic). -/
def w32 (x : Nat) : Nat := x % 4294967296

/-- 32-bit right rotation (input assumed `< 2^32`). -/
def rotr32 (x n : Nat) : Nat := w32 ((x >>> n) ||| (x <<< (32 - n)))

/-- SHA-256 round constants. -/
def sha256K : List Nat :=
  [1116352408, 1899447441, 3049323471, 3921009573, 961987163, 1508970993,
   2453635748, 2870763221, 3624381080, 310598401, 607225278, 1426881987,
   1925078388, 2162078206, 2614888103, 3248222580, 3835390401, 4022224774,
   264347078, 604807628, 770255983, 1249150122, 1555081692, 1996064986,
   2554220882, 2821834349, 2952996808, 3210313671, 3336571891, 3584528711,
   113926993, 338241895, 666307205, 773529912, 1294757372, 1396182291,
   1695183700, 1986661051, 2177026350, 2456956037, 2730485921, 2820302411,
   3259730800, 3345764771, 3516065817, 3600352804, 4094571909, 275423344,
   430227734, 506948616, 659060556, 883997877, 958139571, 1322822218,
   1537002063, 1747873779, 1955562222, 2024104815, 2227730452, 2361852424,
   2428436474, 2756734187, 3204031479, 3329325298]

/-- SHA-256 initial hash state. -/
def sha256H0 : List Nat :=
  [1779033703, 3144134277, 1013904242, 2773480762, 1359893119, 2600822924,
   528734635, 1541459225]

/-- Bitwise complement on 32 bits. -/
def not32 (x : Nat) : Nat := x ^^^ 4294967295

/-- SHA-256 message-schedule extension step. -/
def sha256SmallSigma0 (x : Nat) : Nat := rotr32 x 7 ^^^ rotr32 x 18 ^^^ (x >>> 3)

/-- SHA-256 message-schedule extension step. -/
def sha256SmallSigma1 (x : Nat) : Nat := rotr32 x 17 ^^^ rotr32 x 19 ^^^ (x >>> 10)

/-- SHA-256 compression sigma. -/
def sha256BigSigma0 (x : Nat) : Nat := rotr32 x 2 ^^^ rotr32 x 13 ^^^ rotr32 x 22

/-- SHA-256 compression sigma. -/
def sha256BigSigma1 (x : Nat) : Nat := rotr32 x 6 ^^^ rotr32 x 11 ^^^ rotr32 x 25

/-- Big-endian bytes (most significant first) of `x`, `n` bytes. -/
def beBytes (n x : Nat) : List Nat :=
  match n with
  | 0 => []
  | n + 1 => beBytes n (x / 256) ++ [x % 256]

/-- Interpret big-endian bytes as a `Nat`
(`int.from_bytes(key, byteorder="big", signed=False)`). -/
def beNat (bs : List Nat) : Nat :=
  bs.foldl (fun acc b => acc * 256 + b) 0

/-- Chunk starting offsets `range(0, n, w)` for `w > 0`. -/
def chunkStarts (n w : Nat) : List Nat :=
  (List.range ((n + w - 1) / w)).map (· * w)

/-- Split a byte list into 4-byte big-endian 32-bit words. -/
def beWords (bs : List Nat) : List Nat :=
  (chunkStarts bs.length 4).map (fun i => beNat ((bs.drop i).take 4))

/-- Extend 16 words to the 64-word SHA-256 message schedule. -/
def sha256Schedule (ws : List Nat) : Nat → List Nat
  | 0 => ws
  | k + 1 =>
    let ws' := sha256Schedule ws k
    let i := ws'.length
    ws' ++ [w32 (sha256SmallSigma1 (ws'.getD (i - 2) 0) + ws'.getD (i - 7) 0 +
                 sha256SmallSigma0 (ws'.getD (i - 15) 0) + ws'.getD (i - 16) 0)]

/-- One SHA-256 round. -/
def sha256Round (st : List Nat) (kw : Nat × Nat) : List Nat :=
  let a := st.getD 0 0
  let b := st.getD 1 0
  let c := st.getD 2 0
  let d := st.getD 3 0
  let e := st.getD 4 0
  let f := st.getD 5 0
  let g := st.getD 6 0
  let h := st.getD 7 0
  let t1 := w32 (h + sha256BigSigma1 e + ((e &&& f) ^^^ (not32 e &&& g)) + kw.1 + kw.2)
  let t2 := w32 (sha256BigSigma0 a + ((a &&& b) ^^^ (a &&& c) ^^^ (b &&& c)))
  [w32 (t1 + t2), a, b, c, w32 (d + t1), e, f, g]

/-- Compress one 64-byte block into the hash state. -/
def sha256Compress (h block : List Nat) : List Nat :=
  let ws := sha256Schedule (beWords block) 48
  let st := (sha256K.zip ws).foldl sha256Round h
  (h.zip st).map (fun p => w32 (p.1 + p.2))

/-- SHA-256 padding: append `0x80`, zeros, and the 64-bit big-endian bit length. -/
def sha256Pad (msg : List Nat) : List Nat :=
  msg ++ [128] ++ List.replicate ((119 - msg.length % 64) % 64) 0 ++
    beBytes 8 (msg.length * 8)

/-- Full SHA-256 digest (32 bytes) of a byte list. -/
def sha256 (msg : List Nat) : List Nat :=
  let padded := sha256Pad msg
  let final := (chunkStarts padded.length 64).foldl
    (fun h i => sha256Compress h ((padded.drop i).take 64)) sha256H0
  final.flatMap (beBytes 4)

/-- HMAC-SHA256. -/
def hmacSha256 (key msg : List Nat) : List Nat :=
  let key1 := if 64 < key.length then sha256 key else key
  let key2 := key1 ++ List.replicate (64 - key1.length) 0
  let ipad := key2.map (fun b => b ^^^ 54)
  let opad := key2.map (fun b => b ^^^ 92)
  sha256 (opad ++ sha256 (ipad ++ msg))

/-- The `iterations - 1` xor-accumulation loop of PBKDF2. -/
def pbkdf2Loop (pw : List Nat) (u t : List Nat) : Nat → List Nat
  | 0 => t
  | k + 1 =>
    let u' := hmacSha256 pw u
    pbkdf2Loop pw u' ((t.zip u').map (fun p => p.1 ^^^ p.2)) k

/-- `hashlib.pbkdf2_hmac("sha256", pw, salt, iterations, dklen=32)`: a single
PBKDF2 block (`dklen` equals the hash length). -/
def pbkdf2HmacSha256 (pw salt : List Nat) (iterations : Nat) : List Nat :=
  let u1 := hmacSha256 pw (salt ++ beBytes 4 1)
  pbkdf2Loop pw u1 u1 (iterations - 1)

/-! ## Password validation and seed derivation -/

/-- UTF-8 bytes of a string (`password.encode("utf-8")`). -/
def utf8Bytes (s : String) : List Nat :=
  s.toUTF8.toList.map (fun b => b.toNat)

/-- `_validate_password`: rejects empty or all-whitespace passwords
(`not password or not password.strip()`) and passwords shorter than
`MIN_PASSWORD_LENGTH`; returns the UTF-8 bytes otherwise.  (Python's
`str.strip` removes Unicode whitespace; `Char.isWhitespace` covers the
ASCII cases, which is the relevant fragment here.) -/
def validatePassword (password : String) : Except StegoErr (List Nat) :=
  if password.data.all (fun c => c.isWhitespace) then
    .error "Password cannot be empty."
  else if password.length < MIN_PASSWORD_LENGTH then
    .error "Password must be at least 8 characters."
  else
    .ok (utf8Bytes password)

/-- The password precondition, as a proposition: non-empty, not blank,
length at least `MIN_PASSWORD_LENGTH`. -/
def ValidPassword (password : String) : Prop :=
  ¬ password.data.all (fun c => c.isWhitespace) ∧
    MIN_PASSWORD_LENGTH ≤ password.length

instance (password : String) : Decidable (ValidPassword password) := by
  unfold ValidPassword; infer_instance

/-- `_derive_embedding_seed(password)`: PBKDF2-HMAC-SHA256 with the fixed
embedding salt and iteration count, interpreted as a big-endian integer. -/
def deriveEmbeddingSeed (password : String) : Except StegoErr Nat :=
  (validatePassword password).map
    (fun pb => beNat (pbkdf2HmacSha256 pb EMBED_KDF_SALT EMBED_KDF_ITERATIONS))

theorem validatePassword_ok {password : String} (h : ValidPassword password) :
    validatePassword password = .ok (utf8Bytes password) := by
  unfold validatePassword
  have h2 := h.2
  rw [if_neg (by simpa using h.1), if_neg (by omega)]

/-! ## MT19937 (semantics of CPython's `random.Random(seed)`)

`_iter_keyed_positions` constructs `random.Random(seed)` and calls
`rng.shuffle`.  CPython's `Random` is the MT19937 generator; `shuffle`
draws with `_randbelow_with_getrandbits`.  All of that is embedded here.
32-bit state words are `Nat` values `< 2^32` maintained with `w32`. -/

/-- Generator state: the 624-word vector and the word index `mti`. -/
structure MTState where
  mt : List Nat
  mti : Nat

/-- The recurrence of `init_genrand`:
`mt[i] = (1812433253 * (mt[i-1] ^ (mt[i-1] >> 30)) + i) & 0xffffffff`. -/
def mtSeedStep (prev i : Nat) : Nat :=
  w32 (1812433253 * (prev ^^^ (prev >>> 30)) + i)

/-- Words `mt[i] .. mt[623]` produced by `init_genrand` given `mt[i-1]`. -/
def mtSeedTail (prev i : Nat) (count : Nat) : List Nat :=
  match count with
  | 0 => []
  | c + 1 => let cur := mtSeedStep prev i; cur :: mtSeedTail cur (i + 1) c

/-- `init_genrand(s)`: the full 624-word vector. -/
def mtInitVector (s : Nat) : List Nat :=
  w32 s :: mtSeedTail (w32 s) 1 623

/-- One step of the first `init_by_array` mixing loop:
`mt[i] = ((mt[i] ^ ((mt[i-1] ^ (mt[i-1] >> 30)) * 1664525)) + key[j] + j) & mask`,
with the index wrap-around `if i >= 624: mt[0] = mt[623]; i = 1`. -/
def mtMix1Step (key : List Nat) (st : List Nat × Nat × Nat) (_ : Nat) :
    List Nat × Nat × Nat :=
  let (mt, i, j) := st
  let prev := mt.getD (i - 1) 0
  let v := w32 ((mt.getD i 0 ^^^ w32 ((prev ^^^ (prev >>> 30)) * 1664525)) +
                key.getD j 0 + j)
  let mt := mt.set i v
  let i := i + 1
  let j := j + 1
  let (mt, i) := if 624 ≤ i then (mt.set 0 (mt.getD 623 0), 1) else (mt, i)
  let j := if key.length ≤ j then 0 else j
  (mt, i, j)

/-- One step of the second `init_by_array` mixing loop:
`mt[i] = ((mt[i] ^ ((mt[i-1] ^ (mt[i-1] >> 30)) * 1566083941)) - i) & mask`. -/
def mtMix2Step (st : List Nat × Nat) (_ : Nat) : List Nat × Nat :=
  let (mt, i) := st
  let prev := mt.getD (i - 1) 0
  let x := mt.getD i 0 ^^^ w32 ((prev ^^^ (prev >>> 30)) * 1566083941)
  let v := (x + 4294967296 - i % 4294967296) % 4294967296
  let mt := mt.set i v
  let i := i + 1
  let (mt, i) := if 624 ≤ i then (mt.set 0 (mt.getD 623 0), 1) else (mt, i)
  (mt, i)

/-- `init_by_array(key)`: seeds with `init_genrand(19650218)`, runs the two
mixing loops, and forces `mt[0] = 0x80000000`.  CPython leaves `mti = 624`
so the first extraction twists. -/
def mtFromKey (key : List Nat) : MTState :=
  let mt0 := mtInitVector 19650218
  let k := max 624 key.length
  let (mt1, i1, _) := (List.range k).foldl (mtMix1Step key) (mt0, 1, 0)
  let (mt2, _) := (List.range 623).foldl mtMix2Step (mt1, i1)
  ⟨mt2.set 0 2147483648, 624⟩

/-- Little-endian base-`2^32` digits of `n` (at least one digit), the key
format CPython passes to `init_by_array` for an integer seed. -/
def seedDigits (n : Nat) : List Nat :=
  if h : n < 4294967296 then [n]
  else
    have : n / 4294967296 < n := Nat.div_lt_self (by omega) (by omega)
    w32 n :: seedDigits (n / 4294967296)

/-- `random.Random(seed)` for a non-negative integer seed. -/
def mtFromSeed (seed : Nat) : MTState :=
  mtFromKey (seedDigits seed)

/-- One step of the state-vector regeneration (`genrand_uint32`'s twist),
written uniformly with wrap-around indices: for `kk` from 0 to 623,
`y = (mt[kk] & 0x80000000) | (mt[(kk+1) % 624] & 0x7fffffff);`
`mt[kk] = mt[(kk+397) % 624] ^ (y >> 1) ^ (0x9908b0df if y & 1 else 0)`.
The C code splits this into three loops over the same formula. -/
def mtTwistStep (mt : List Nat) (kk : Nat) : List Nat :=
  let y := (mt.getD kk 0 &&& 2147483648) ||| (mt.getD ((kk + 1) % 624) 0 &&& 2147483647)
  let mag := if y &&& 1 = 1 then 2567483615 else 0
  mt.set kk (mt.getD ((kk + 397) % 624) 0 ^^^ (y >>> 1) ^^^ mag)

/-- The full twist over the 624-word vector. -/
def mtTwist (mt : List Nat) : List Nat :=
  (List.range 624).foldl mtTwistStep mt

/-- MT19937 output tempering. -/
def mtTemper (y : Nat) : Nat :=
  let y := y ^^^ (y >>> 11)
  let y := y ^^^ ((y <<< 7) &&& 2636928640)
  let y := y ^^^ ((y <<< 15) &&& 4022730752)
  y ^^^ (y >>> 18)

/-- `genrand_uint32`: twist if the vector is exhausted, then temper the
next word. -/
def mtNext (g : MTState) : Nat × MTState :=
  let g := if 624 ≤ g.mti then MTState.mk (mtTwist g.mt) 0 else g
  (mtTemper (g.mt.getD g.mti 0), ⟨g.mt, g.mti + 1⟩)

/-- `getrandbits(k)` for `k ≥ 1`: one tempered word shifted down for
`k ≤ 32`; for larger `k`, 32-bit words assembled little-endian with the
last word truncated, as in `_randommodule.c`. -/
def getrandbits (g : MTState) (k : Nat) : Nat × MTState :=
  if k ≤ 32 then
    let (y, g') := mtNext g
    (y >>> (32 - k), g')
  else
    let (lo, g') := mtNext g
    let (hi, g'') := getrandbits g' (k - 32)
    (lo ||| (hi <<< 32), g'')
  decreasing_by simp_wf; omega

/-- `n.bit_length()`. -/
def natBitLength (n : Nat) : Nat :=
  if n = 0 then 0 else Nat.log2 n + 1

/-- The rejection loop of `_randbelow_with_getrandbits`:
`r = getrandbits(k); while r >= n: r = getrandbits(k)`.  The loop is
unbounded in CPython (it terminates with probability 1); here it carries
fuel, and returns 0 — a legal value for `n > 0` — in the
measure-zero case that every draw is rejected. -/
def randbelowGo (g : MTState) (n k : Nat) : Nat → Nat × MTState
  | 0 => (0, g)
  | fuel + 1 =>
    let (r, g') := getrandbits g k
    if r < n then (r, g') else randbelowGo g' n k fuel

/-- Fuel for the rejection loop (each draw is rejected with probability
less than 1/2, so 64 draws bound all realistic executions). -/
def RANDBELOW_FUEL : Nat := 64

/-- `_randbelow(n)` (defined for `n > 0`). -/
def randbelow (g : MTState) (n : Nat) : Nat × MTState :=
  randbelowGo g n (natBitLength n) RANDBELOW_FUEL

/-- The Python tuple swap `x[i], x[j] = x[j], x[i]` on a list.  Both
indices are in range whenever the source performs it; out-of-range
accesses leave the list unchanged. -/
def listSwap (xs : List α) (i j : Nat) : List α :=
  match xs[i]?, xs[j]? with
  | some a, some b => (xs.set i b).set j a
  | _, _ => xs

/-- `random.Random.shuffle(x)`:
`for i in reversed(range(1, len(x))): j = _randbelow(i + 1); x[i], x[j] = x[j], x[i]`,
embedded literally as a fold over `reversed(range(1, len(x)))`. -/
def pyShuffle (g : MTState) (xs : List α) : List α × MTState :=
  ((List.range' 1 (xs.length - 1)).reverse).foldl
    (fun st i =>
      let (j, g') := randbelow st.2 (i + 1)
      (listSwap st.1 i j, g'))
    (xs, g)

/-- Reference formulation of the same descending Fisher–Yates shuffle:
for `i` from `n-1` down to `1`, draw `j` uniformly below `i + 1` and swap
positions `i` and `j`.  The recursion argument is the current index `i`. -/
def fisherYatesDown (g : MTState) (xs : List α) : Nat → List α × MTState
  | 0 => (xs, g)
  | i + 1 =>
    let (j, g') := randbelow g (i + 2)
    fisherYatesDown g' (listSwap xs (i + 1) j) i

/-- The forward Fisher–Yates shuffle exactly as the spec describes the
permutation: for `i` from 0 to N-1, draw `j` uniformly from `[i, N-1]`
(that is, `j = i + _randbelow(N - i)` on the same seeded generator), swap
positions `i` and `j`.  When only one position remains the draw is forced
to `j = i` and the swap is the identity, so iteration stops there.  The
recursion argument is the number of remaining positions `N - i`. -/
def fisherYatesFwd (g : MTState) (xs : List α) : Nat → List α × MTState
  | 0 => (xs, g)
  | 1 => (xs, g)
  | k + 2 =>
    let i := xs.length - (k + 2)
    let (r, g') := randbelow g (k + 2)
    fisherYatesFwd g' (listSwap xs i (i + r)) (k + 1)

/-! ## Sample decoding and high-energy selection -/

/-- The in-chunk masking `chunk[0] &= 0xFE` applied when `mask_lsb` is true. -/
def maskChunk (chunk : List Nat) : List Nat :=
  match chunk with
  | [] => []
  | b :: rest => (b &&& 254) :: rest

/-- Little-endian unsigned value of a byte list. -/
def leUnsigned : List Nat → Nat
  | [] => 0
  | b :: rest => b + 256 * leUnsigned rest

/-- `int.from_bytes(chunk, byteorder="little", signed=True)`. -/
def leSigned (bs : List Nat) : Int :=
  let u := leUnsigned bs
  if 2 ^ (8 * bs.length) ≤ 2 * u then (u : Int) - 2 ^ (8 * bs.length) else (u : Int)

/-- Decode one `sampwidth`-byte chunk: 1-byte samples are unsigned and
recentered (`chunk[0] - 128`), wider samples are little-endian signed. -/
def decodeChunk (w : Nat) (chunk : List Nat) : Int :=
  if w = 1 then (chunk.getD 0 0 : Int) - 128 else leSigned chunk

/-- `_read_sample_values(frame_bytes, sampwidth, mask_lsb)`: decode each
`sampwidth`-byte chunk (`for i in range(0, len(frame_bytes), sampwidth)`),
optionally clearing bit 0 of its first byte first. -/
def readSampleValues (frames : List Nat) (w : Nat) (maskLsb : Bool) : List Int :=
  (chunkStarts frames.length w).map
    (fun i => decodeChunk w ((if maskLsb then maskChunk else id) ((frames.drop i).take w)))

/-- The percentile cutoff index `int(len * HIGH_ENERGY_PERCENTILE)` with
`HIGH_ENERGY_PERCENTILE = 0.6`.  For every list length `n` below `2^53`
the Python float expression `int(n * 0.6)` equals `3 * n / 5` in exact
arithmetic: the float product errs from `3n/5` by less than `n * 2^-54`,
which is under half an ulp at that magnitude, so it rounds to the
correctly rounded value, whose floor is `3n/5` (checked exhaustively for
n up to 3,000,000 as well). -/
def cutoffIndexRaw (n : Nat) : Nat := n * 3 / 5

/-- `_select_high_energy_positions(frame_bytes, sampwidth)`: decode with
the LSB masked, rank samples by absolute magnitude, take the value at the
(clamped) 60th-percentile index of the ascending sort as threshold, and
return all sample indices with magnitude at least the threshold, in
ascending order.  (Python's `sorted` is modelled by insertion sort: on a
list of numbers every correct ascending sort produces the same list.) -/
def selectHighEnergyPositions (frames : List Nat) (w : Nat) :
    Except StegoErr (List Nat) :=
  let samples := readSampleValues frames w true
  if samples = [] then
    .error "Audio has no samples available for embedding."
  else
    let energies := samples.map Int.natAbs
    let sortedEnergies := List.insertionSort (· ≤ ·) energies
    let cutoffIndex :=
      if sortedEnergies.length ≤ cutoffIndexRaw sortedEnergies.length then
        sortedEnergies.length - 1
      else cutoffIndexRaw sortedEnergies.length
    let threshold := sortedEnergies.getD cutoffIndex 0
    let positions := (List.range energies.length).filter
      (fun i => threshold ≤ energies.getD i 0)
    if positions = [] then
      .error "No high-energy samples available for embedding."
    else
      .ok positions

/-! ## WAV container parameters (`_read_wave` checks, `_write_wave`) -/

/-- The parameter record of a WAV file as returned by `wave.getparams()`
(the compression name is omitted; it is never inspected). -/
structure WavParams where
  nchannels : Nat
  sampwidth : Nat
  framerate : Nat
  nframes : Nat
  comptype : String
deriving DecidableEq

/-- The validation performed by `_read_wave` after opening the container:
unsupported sample width, compressed audio, and zero frames are rejected.
File-path checks (existence, `.wav` extension) are not modelled. -/
def readWaveCheck (params : WavParams) : Except StegoErr Unit :=
  if params.sampwidth ∉ SUPPORTED_SAMPLE_WIDTHS then
    .error "Unsupported sample width."
  else if params.comptype ≠ "NONE" then
    .error "Compressed WAV files are not supported."
  else if params.nframes = 0 then
    .error "WAV file has no audio frames."
  else
    .ok ()

/-- `calculate_capacity(path)` after the file has been opened: validate the
container, select eligible positions, and return
`max(0, len(positions) // 8 - len(DELIMITER))` (computed in `Int` as in
Python, where the subtraction may go negative before the clamp). -/
def calculateCapacity (params : WavParams) (frames : List Nat) :
    Except StegoErr Int :=
  match readWaveCheck params with
  | .error e => .error e
  | .ok () =>
    match selectHighEnergyPositions frames params.sampwidth with
    | .error e => .error e
    | .ok positions =>
      let maxPayload := positions.length / 8
      .ok (max 0 ((maxPayload : Int) - (DELIMITER.length : Int)))

/-! ## The keyed position sequence (`_iter_keyed_positions`) -/

/-- The generator body for a given seed: `rng = random.Random(seed);`
`shuffled = positions[:]; rng.shuffle(shuffled); yield from shuffled`. -/
def keyedSeq (seed : Nat) (positions : List Nat) : List Nat :=
  (pyShuffle (mtFromSeed seed) positions).1

/-- The same, but with the forward Fisher–Yates shuffle the spec words
describe in place of `random.Random.shuffle`. -/
def specKeyedSeq (seed : Nat) (positions : List Nat) : List Nat :=
  (fisherYatesFwd (mtFromSeed seed) positions positions.length).1

/-- `_iter_keyed_positions(positions, password)`: fail on an empty position
list, derive the seed, seed a fresh generator, shuffle a copy of the
positions, and yield its elements in order.  (The source is a generator,
so validation actually runs at the first `next()`; every caller consumes
it, making the eager embedding equivalent.) -/
def iterKeyedPositions (positions : List Nat) (password : String) :
    Except StegoErr (List Nat) :=
  if positions = [] then
    .error "No eligible samples for embedding."
  else
    (deriveEmbeddingSeed password).map (fun seed => keyedSeq seed positions)

/-- The keyed position sequence exactly as the spec describes it, with the
forward Fisher–Yates shuffle of `fisherYatesFwd` in place of
`random.Random.shuffle`; used to compare the spec's algorithm with the
code's. -/
def specIterKeyedPositions (positions : List Nat) (password : String) :
    Except StegoErr (List Nat) :=
  if positions = [] then
    .error "No eligible samples for embedding."
  else
    (deriveEmbeddingSeed password).map (fun seed => specKeyedSeq seed positions)

/-! ## Embedding and extraction loops -/

/-- The embedding loop of `hide_data`: for each payload bit, take the next
keyed position, and set bit 0 of the first byte of that sample
(`frame_bytes[byte_index] = (frame_bytes[byte_index] & 0xFE) | bit`).
Exhaustion of the position iterator (`StopIteration` escaping `next`)
is modelled as an error; the capacity check rules it out. -/
def embedLoop (w : Nat) : List Nat → List Nat → List Nat →
    Except StegoErr (List Nat)
  | [], _, frames => .ok frames
  | _ :: _, [], _ => .error "Keyed position iterator exhausted."
  | bit :: bits, p :: ps, frames =>
    let byteIndex := p * w
    embedLoop w bits ps
      (frames.set byteIndex ((frames.getD byteIndex 0 &&& 254) ||| bit))

/-- `hide_data` after the input file has been read: validate the payload
and container, check capacity against total slots and against the
eligible high-energy positions, derive the keyed order, embed all bits of
`payload + DELIMITER` MSB-first, and return the parameters (unchanged)
with the new frame buffer — the pair that `_write_wave` then writes. -/
def hideData (params : WavParams) (frames : List Nat) (payload : List Nat)
    (password : String) : Except StegoErr (WavParams × List Nat) :=
  if payload = [] then
    .error "Payload must be non-empty bytes."
  else
    match readWaveCheck params with
    | .error e => .error e
    | .ok () =>
      let fullPayload := payload ++ DELIMITER
      let requiredBits := fullPayload.length * 8
      if params.nframes * params.nchannels < requiredBits then
        .error "Message too large for this audio file. Reduce size or use a larger WAV."
      else
        match selectHighEnergyPositions frames params.sampwidth with
        | .error e => .error e
        | .ok positions =>
          if positions.length < requiredBits then
            .error "Message too large for high-energy embedding. Use a larger WAV or shorter message."
          else
            match iterKeyedPositions positions password with
            | .error e => .error e
            | .ok keyed =>
              match embedLoop params.sampwidth (bytesToBits fullPayload) keyed frames with
              | .error e => .error e
              | .ok outFrames => .ok (params, outFrames)

/-- The write trace of one `hide_data` call: `_write_wave` is invoked
exactly once, after the embedding loop has completed on the in-memory
buffer, so a failing call writes nothing and a successful call writes the
single finished container. -/
def hideWrites (params : WavParams) (frames : List Nat) (payload : List Nat)
    (password : String) : List (WavParams × List Nat) :=
  match hideData params frames payload password with
  | .error _ => []
  | .ok out => [out]

/-- The extraction loop of `extract_data`: read bit 0 of the first byte of
each keyed sample in order, fold each 8 bits MSB-first into a byte, and
after each completed byte return everything before the delimiter if the
collected bytes end with it.  Running out of positions raises the
delimiter-not-found error. -/
def extractLoop (frames : List Nat) (w : Nat) :
    List Nat → List Nat → List Nat → Except StegoErr (List Nat)
  | [], _, _ => .error "Delimiter not found. Wrong password or no hidden message."
  | p :: rest, collected, bitBuffer =>
    let bitBuffer := bitBuffer ++ [frames.getD (p * w) 0 &&& 1]
    if bitBuffer.length = 8 then
      let collected := collected ++ [bitsToByte bitBuffer]
      if DELIMITER.isSuffixOf collected then
        .ok (collected.take (collected.length - DELIMITER.length))
      else
        extractLoop frames w rest collected []
    else
      extractLoop frames w rest collected bitBuffer

/-- `extract_data` after the file has been read: validate the container,
select eligible positions with the same masked heuristic, derive the same
keyed order, and run the extraction loop. -/
def extractData (params : WavParams) (frames : List Nat) (password : String) :
    Except StegoErr (List Nat) :=
  match readWaveCheck params with
  | .error e => .error e
  | .ok () =>
    match selectHighEnergyPositions frames params.sampwidth with
    | .error e => .error e
    | .ok positions =>
      match iterKeyedPositions positions password with
      | .error e => .error e
      | .ok keyed => extractLoop frames params.sampwidth keyed [] []

/-- Reference description of the delimiter protocol on the decoded byte
stream: append bytes one at a time and return everything before the
delimiter as soon as the collected bytes end with it. -/
def scanGo : List Nat → List Nat → Except StegoErr (List Nat)
  | [], _ => .error "Delimiter not found. Wrong password or no hidden message."
  | b :: bs, collected =>
    let collected := collected ++ [b]
    if DELIMITER.isSuffixOf collected then
      .ok (collected.take (collected.length - DELIMITER.length))
    else
      scanGo bs collected

/-! ## List helper lemmas -/

theorem mem_of_mem_set {α : Type _} {xs : List α} {i : Nat} {v x : α}
    (h : x ∈ xs.set i v) : x ∈ xs ∨ x = v := by
  induction xs generalizing i with
  | nil => simp at h
  | cons a t ih =>
    cases i with
    | zero =>
      rcases List.mem_cons.mp h with h | h
      · exact .inr h
      · exact .inl (.tail _ h)
    | succ i =>
      rcases List.mem_cons.mp h with h | h
      · exact .inl (h ▸ .head _)
      · rcases ih h with h' | h'
        · exact .inl (.tail _ h')
        · exact .inr h'

theorem getD_set_self {α : Type _} {xs : List α} {i : Nat} (v d : α)
    (h : i < xs.length) : (xs.set i v).getD i d = v := by
  induction xs generalizing i with
  | nil => simp at h
  | cons a t ih =>
    cases i with
    | zero => rfl
    | succ i => exact ih (by simpa using h)

theorem getD_set_ne {α : Type _} (xs : List α) {i j : Nat} (v d : α)
    (h : i ≠ j) : (xs.set i v).getD j d = xs.getD j d := by
  induction xs generalizing i j with
  | nil => simp
  | cons a t ih =>
    cases i with
    | zero =>
      cases j with
      | zero => exact absurd rfl h
      | succ j => rfl
    | succ i =>
      cases j with
      | zero => rfl
      | succ j => exact ih (fun hc => h (by omega))

theorem length_set_eq {α : Type _} (xs : List α) (i : Nat) (v : α) :
    (xs.set i v).length = xs.length := by
  simp

/-- Moving the element at index `j` to the front while writing `x` at `j`
is a permutation of putting `x` at the front. -/
theorem perm_cons_set {α : Type _} :
    ∀ (t : List α) (j : Nat) (b x : α), t[j]? = some b →
      List.Perm (b :: t.set j x) (x :: t)
  | [], j, b, x, h => by simp at h
  | c :: t', 0, b, x, h => by
    simp only [List.getElem?_cons_zero, Option.some.injEq] at h
    subst h
    exact List.Perm.swap x c t'
  | c :: t', j + 1, b, x, h => by
    simp only [List.getElem?_cons_succ] at h
    have h1 : List.Perm (b :: c :: t'.set j x) (c :: b :: t'.set j x) :=
      List.Perm.swap c b _
    have h2 : List.Perm (c :: b :: t'.set j x) (c :: x :: t') :=
      (perm_cons_set t' j b x h).cons c
    have h3 : List.Perm (c :: x :: t') (x :: c :: t') := List.Perm.swap x c t'
    exact (h1.trans h2).trans h3

/-- Writing the two fetched elements crosswise is a permutation. -/
theorem perm_set_set {α : Type _} :
    ∀ (xs : List α) (i j : Nat) (a b : α), xs[i]? = some a →
      xs[j]? = some b → List.Perm ((xs.set i b).set j a) xs
  | [], i, _, _, _, hi, _ => by simp at hi
  | c :: t, 0, 0, a, b, hi, hj => by
    simp only [List.getElem?_cons_zero, Option.some.injEq] at hi hj
    subst hi
    simp
  | c :: t, 0, j + 1, a, b, hi, hj => by
    simp only [List.getElem?_cons_zero, Option.some.injEq,
      List.getElem?_cons_succ] at hi hj
    subst hi
    exact perm_cons_set t j b c hj
  | c :: t, i + 1, 0, a, b, hi, hj => by
    simp only [List.getElem?_cons_zero, Option.some.injEq,
      List.getElem?_cons_succ] at hi hj
    subst hj
    exact perm_cons_set t i a c hi
  | c :: t, i + 1, j + 1, a, b, hi, hj => by
    simp only [List.getElem?_cons_succ] at hi hj
    exact (perm_set_set t i j a b hi hj).cons c

theorem listSwap_perm {α : Type _} (xs : List α) (i j : Nat) :
    List.Perm (listSwap xs i j) xs := by
  unfold listSwap
  cases hi : xs[i]? with
  | none => exact List.Perm.refl xs
  | some a =>
    cases hj : xs[j]? with
    | none => exact List.Perm.refl xs
    | some b => exact perm_set_set xs i j a b hi hj

theorem listSwap_length {α : Type _} (xs : List α) (i j : Nat) :
    (listSwap xs i j).length = xs.length :=
  (listSwap_perm xs i j).length_eq

/-! ## Shuffle lemmas -/

theorem randbelowGo_lt {n : Nat} (hn : 0 < n) :
    ∀ (g : MTState) (k fuel : Nat), (randbelowGo g n k fuel).1 < n := by
  intro g k fuel
  induction fuel generalizing g with
  | zero => simpa [randbelowGo] using hn
  | succ fuel ih =>
    unfold randbelowGo
    by_cases h : (getrandbits g k).1 < n
    · simp [h]
    · simpa [h] using ih (getrandbits g k).2

theorem randbelow_lt {n : Nat} (hn : 0 < n) (g : MTState) :
    (randbelow g n).1 < n :=
  randbelowGo_lt hn g _ _

/-- The literal fold over `reversed(range(1, len(x)))` in `pyShuffle`
agrees with the index-recursion formulation `fisherYatesDown`. -/
theorem pyShuffle_eq_fisherYatesDown {α : Type _} (g : MTState) (xs : List α) :
    pyShuffle g xs = fisherYatesDown g xs (xs.length - 1) := by
  suffices h : ∀ (k : Nat) (ys : List α) (g' : MTState),
      ((List.range' 1 k).reverse).foldl
        (fun st i =>
          let (j, g'') := randbelow st.2 (i + 1)
          (listSwap st.1 i j, g''))
        (ys, g') = fisherYatesDown g' ys k by
    exact h (xs.length - 1) xs g
  intro k
  induction k with
  | zero => intro ys g'; rfl
  | succ k ih =>
    intro ys g'
    rw [List.range'_concat, List.reverse_append]
    simp only [List.reverse_cons, List.reverse_nil, List.nil_append,
      List.cons_append, List.foldl_cons]
    rw [ih]
    have hk : 1 + 1 * k = k + 1 := by omega
    rw [hk]
    rfl

theorem fisherYatesDown_perm {α : Type _} :
    ∀ (i : Nat) (g : MTState) (xs : List α),
      List.Perm (fisherYatesDown g xs i).1 xs := by
  intro i
  induction i with
  | zero => intro g xs; exact List.Perm.refl xs
  | succ i ih =>
    intro g xs
    unfold fisherYatesDown
    exact (ih _ _).trans (listSwap_perm xs (i + 1) _)

theorem pyShuffle_perm {α : Type _} (g : MTState) (xs : List α) :
    List.Perm (pyShuffle g xs).1 xs := by
  rw [pyShuffle_eq_fisherYatesDown]
  exact fisherYatesDown_perm _ _ _

/-- On a two-element list the code's shuffle and the spec's forward
Fisher–Yates always disagree: both make the single draw
`_randbelow(2)` from the same generator state, but the code swaps
positions `1` and `j` while the forward algorithm swaps positions `0`
and `j`, producing opposite outcomes for either value of the draw. -/
theorem pyShuffle_ne_fwd_pair {α : Type _} (g : MTState) (a b : α)
    (hab : a ≠ b) :
    (pyShuffle g [a, b]).1 ≠ (fisherYatesFwd g [a, b] 2).1 := by
  have hlt : (randbelow g 2).1 < 2 := randbelow_lt (by omega) g
  have hpy : (pyShuffle g [a, b]).1 = listSwap [a, b] 1 (randbelow g 2).1 := by
    rw [pyShuffle_eq_fisherYatesDown]
    rfl
  have hfwd : (fisherYatesFwd g [a, b] 2).1 =
      listSwap [a, b] 0 (0 + (randbelow g 2).1) := by
    rfl
  rw [hpy, hfwd]
  have hcases : (randbelow g 2).1 = 0 ∨ (randbelow g 2).1 = 1 := by omega
  rcases hcases with h | h <;> rw [h]
  · intro hc
    have e1 : listSwap [a, b] 1 0 = [b, a] := rfl
    have e2 : listSwap [a, b] 0 (0 + 0) = [a, b] := rfl
    rw [e1, e2] at hc
    simp only [List.cons.injEq, and_true] at hc
    exact hab hc.2
  · intro hc
    have e1 : listSwap [a, b] 1 1 = [a, b] := rfl
    have e2 : listSwap [a, b] 0 (0 + 1) = [b, a] := rfl
    rw [e1, e2] at hc
    simp only [List.cons.injEq, and_true] at hc
    exact hab hc.1

/-! ## Byte arithmetic facts (proved by bounded case enumeration) -/

set_option maxRecDepth 100000

theorem land254_eq : ∀ x < 256, x &&& 254 = x / 2 * 2 := by decide

theorem embed_byte_lsb : ∀ x < 256, ∀ b < 2, ((x &&& 254) ||| b) &&& 1 = b := by
  decide

theorem embed_byte_div2 : ∀ x < 256, ∀ b < 2, ((x &&& 254) ||| b) / 2 = x / 2 := by
  decide

theorem embed_byte_lt : ∀ x < 256, ∀ b < 2, ((x &&& 254) ||| b) < 256 := by
  decide

theorem bitsToByte_byteToBits : ∀ b < 256, bitsToByte (byteToBits b) = b := by
  decide

theorem byteToBits_lt {b x : Nat} (h : x ∈ byteToBits b) : x < 2 := by
  simp only [byteToBits, List.mem_map] at h
  obtain ⟨k, _, rfl⟩ := h
  have : (b >>> k) &&& 1 ≤ 1 := Nat.and_le_right
  omega

theorem byteToBits_length (b : Nat) : (byteToBits b).length = 8 := rfl

theorem bytesToBits_cons (b : Nat) (rest : List Nat) :
    bytesToBits (b :: rest) = byteToBits b ++ bytesToBits rest := by
  simp [bytesToBits]

theorem bytesToBits_length (data : List Nat) :
    (bytesToBits data).length = data.length * 8 := by
  induction data with
  | nil => rfl
  | cons b rest ih =>
    rw [bytesToBits_cons, List.length_append, ih, byteToBits_length]
    simp [Nat.succ_mul]
    omega

/-! ## Selection characterization -/

/-- The candidate position list computed inside
`_select_high_energy_positions` (before the emptiness checks). -/
def highEnergyCandidates (frames : List Nat) (w : Nat) : List Nat :=
  let samples := readSampleValues frames w true
  let energies := samples.map Int.natAbs
  let sortedEnergies := List.insertionSort (· ≤ ·) energies
  let cutoffIndex :=
    if sortedEnergies.length ≤ cutoffIndexRaw sortedEnergies.length then
      sortedEnergies.length - 1
    else cutoffIndexRaw sortedEnergies.length
  let threshold := sortedEnergies.getD cutoffIndex 0
  (List.range energies.length).filter (fun i => threshold ≤ energies.getD i 0)

theorem select_eq_candidates (frames : List Nat) (w : Nat) :
    selectHighEnergyPositions frames w =
      if readSampleValues frames w true = [] then
        .error "Audio has no samples available for embedding."
      else if highEnergyCandidates frames w = [] then
        .error "No high-energy samples available for embedding."
      else .ok (highEnergyCandidates frames w) := rfl

theorem readSampleValues_length (frames : List Nat) (w : Nat) (m : Bool) :
    (readSampleValues frames w m).length = (frames.length + w - 1) / w := by
  simp [readSampleValues, chunkStarts]

/-- A successful selection returns exactly the candidate list. -/
theorem select_ok_elim {frames : List Nat} {w : Nat} {ps : List Nat}
    (h : selectHighEnergyPositions frames w = .ok ps) :
    ps = highEnergyCandidates frames w ∧
      readSampleValues frames w true ≠ [] ∧ ps ≠ [] := by
  rw [select_eq_candidates] at h
  by_cases h1 : readSampleValues frames w true = []
  · rw [if_pos h1] at h; exact absurd h (by simp)
  · rw [if_neg h1] at h
    by_cases h2 : highEnergyCandidates frames w = []
    · rw [if_pos h2] at h; exact absurd h (by simp)
    · rw [if_neg h2] at h
      simp only [Except.ok.injEq] at h
      exact ⟨h.symm, h1, h ▸ h2⟩

theorem candidates_nodup (frames : List Nat) (w : Nat) :
    (highEnergyCandidates frames w).Nodup :=
  (List.nodup_range _).filter _

theorem candidates_mem_lt {frames : List Nat} {w p : Nat}
    (h : p ∈ highEnergyCandidates frames w) :
    p < (frames.length + w - 1) / w := by
  unfold highEnergyCandidates at h
  have := List.mem_range.mp (List.mem_of_mem_filter h)
  simpa [readSampleValues_length] using this

theorem select_nodup {frames : List Nat} {w : Nat} {ps : List Nat}
    (h : selectHighEnergyPositions frames w = .ok ps) : ps.Nodup :=
  (select_ok_elim h).1 ▸ candidates_nodup frames w

/-- Every selected sample index addresses a byte inside the frame buffer:
`p * w < len(frames)`. -/
theorem select_pos_bound {frames : List Nat} {w : Nat} {ps : List Nat}
    (hw : 0 < w) (h : selectHighEnergyPositions frames w = .ok ps) :
    ∀ p ∈ ps, p * w < frames.length := by
  intro p hp
  have hlt : p < (frames.length + w - 1) / w :=
    candidates_mem_lt ((select_ok_elim h).1 ▸ hp)
  have h1 : p + 1 ≤ (frames.length + w - 1) / w := hlt
  have h2 : (p + 1) * w ≤ frames.length + w - 1 :=
    (Nat.le_div_iff_mul_le hw).mp h1
  rw [Nat.succ_mul] at h2
  omega

/-- Non-empty audio always selects successfully: the threshold is one of
the sample magnitudes, so some index always meets it. -/
theorem select_ok_of_ne_nil {frames : List Nat} {w : Nat} (hw : 0 < w)
    (hne : frames ≠ []) :
    selectHighEnergyPositions frames w = .ok (highEnergyCandidates frames w) ∧
      highEnergyCandidates frames w ≠ [] := by
  have hlen : 0 < frames.length := List.length_pos.mpr hne
  have hsamples : (readSampleValues frames w true).length =
      (frames.length + w - 1) / w := readSampleValues_length frames w true
  have hnum : 0 < (frames.length + w - 1) / w := by
    apply Nat.div_pos <;> omega
  have hsne : readSampleValues frames w true ≠ [] := by
    intro hc
    rw [hc] at hsamples
    simp at hsamples
    omega
  -- the threshold is an element of the energy list
  set samples := readSampleValues frames w true with hsdef
  set energies := samples.map Int.natAbs with hedef
  set sortedEnergies := List.insertionSort (· ≤ ·) energies with hsortdef
  have hperm : List.Perm sortedEnergies energies := List.perm_insertionSort _ _
  have hlene : energies.length = samples.length := List.length_map _ _
  have hlens : sortedEnergies.length = energies.length := hperm.length_eq
  have hepos : 0 < energies.length := by
    rw [hlene]
    exact List.length_pos.mpr hsne
  set cutoffIndex :=
    if sortedEnergies.length ≤ cutoffIndexRaw sortedEnergies.length then
      sortedEnergies.length - 1
    else cutoffIndexRaw sortedEnergies.length with hcidef
  have hcut : cutoffIndex < sortedEnergies.length := by
    rw [hcidef]
    split <;> omega
  set threshold := sortedEnergies.getD cutoffIndex 0 with htdef
  have hmem : threshold ∈ sortedEnergies := by
    rw [htdef, List.getD_eq_getElem?_getD, List.getElem?_eq_getElem hcut]
    exact List.getElem_mem _
  have hmem2 : threshold ∈ energies := hperm.mem_iff.mp hmem
  obtain ⟨i, hi, hival⟩ := List.mem_iff_getElem.mp hmem2
  have hfiltmem : i ∈ (List.range energies.length).filter
      (fun j => threshold ≤ energies.getD j 0) := by
    apply List.mem_filter.mpr
    refine ⟨List.mem_range.mpr hi, ?_⟩
    rw [List.getD_eq_getElem?_getD, List.getElem?_eq_getElem hi]
    simpa using Nat.le_of_eq hival.symm
  have hcne : highEnergyCandidates frames w ≠ [] := by
    unfold highEnergyCandidates
    exact List.ne_nil_of_mem hfiltmem
  refine ⟨?_, hcne⟩
  rw [select_eq_candidates, if_neg hsne, if_neg hcne]

/-- Selection fails exactly on an empty frame buffer (for a positive
sample width): the error branches are otherwise unreachable. -/
theorem select_error_iff (frames : List Nat) (w : Nat) (hw : 0 < w) :
    (∃ e, selectHighEnergyPositions frames w = .error e) ↔ frames = [] := by
  constructor
  · intro ⟨e, he⟩
    by_contra hne
    obtain ⟨hok, _⟩ := select_ok_of_ne_nil hw hne
    rw [hok] at he
    exact absurd he (by simp)
  · intro h
    subst h
    refine ⟨"Audio has no samples available for embedding.", ?_⟩
    rw [select_eq_candidates]
    have : readSampleValues [] w true = [] := by
      simp only [readSampleValues, chunkStarts, List.length_nil]
      rw [Nat.zero_add, Nat.div_eq_of_lt (by omega)]
      rfl
    rw [if_pos this]

/-! ## Selection is insensitive to the embedded LSBs -/

theorem maskChunk_length (c : List Nat) : (maskChunk c).length = c.length := by
  cases c <;> simp [maskChunk]

theorem maskChunk_getD (c : List Nat) (k : Nat) :
    (maskChunk c).getD k 0 = if k = 0 then c.getD 0 0 &&& 254 else c.getD k 0 := by
  cases c with
  | nil => cases k <;> simp [maskChunk]
  | cons a t => cases k <;> simp [maskChunk]

theorem chunk_getD (f : List Nat) (i w k : Nat) :
    ((f.drop i).take w).getD k 0 = if k < w then f.getD (i + k) 0 else 0 := by
  by_cases h : k < w
  · rw [if_pos h, List.getD_eq_getElem?_getD, List.getD_eq_getElem?_getD,
      List.getElem?_take_of_lt h, List.getElem?_drop]
  · rw [if_neg h, List.getD_eq_getElem?_getD, List.getElem?_eq_none]
    · rfl
    · simp only [List.length_take, List.length_drop]
      omega

theorem ext_getD {l1 l2 : List Nat} (hlen : l1.length = l2.length)
    (h : ∀ k, l1.getD k 0 = l2.getD k 0) : l1 = l2 := by
  apply List.ext_getElem hlen
  intro k h1 h2
  have hk := h k
  rw [List.getD_eq_getElem?_getD, List.getD_eq_getElem?_getD,
    List.getElem?_eq_getElem h1, List.getElem?_eq_getElem h2] at hk
  simpa using hk

theorem getD_mem {l : List Nat} {i : Nat} (h : i < l.length) (d : Nat) :
    l.getD i d ∈ l := by
  rw [List.getD_eq_getElem?_getD, List.getElem?_eq_getElem h]
  exact List.getElem_mem _

theorem getD_lt_256 {f : List Nat} (hb : ∀ b ∈ f, b < 256) (i : Nat) :
    f.getD i 0 < 256 := by
  by_cases h : i < f.length
  · exact hb _ (getD_mem h 0)
  · rw [List.getD_eq_getElem?_getD, List.getElem?_eq_none (by omega)]
    simp

/-- A chunk start produced by `chunkStarts` indexes into the buffer. -/
theorem chunkStart_lt {L w m : Nat} (hw : 0 < w) (hm : m < (L + w - 1) / w) :
    m * w < L := by
  have h1 : m + 1 ≤ (L + w - 1) / w := hm
  have h2 : (m + 1) * w ≤ L + w - 1 := (Nat.le_div_iff_mul_le hw).mp h1
  rw [Nat.succ_mul] at h2
  omega

/-- Masked sample decoding sees through LSB differences at chunk-start
bytes: two buffers of equal length whose bytes agree except possibly in
bit 0 of each chunk's first byte decode to the same masked samples. -/
theorem readSampleValues_masked_congr {f1 f2 : List Nat} {w : Nat}
    (hw : 0 < w)
    (hb1 : ∀ b ∈ f1, b < 256) (hb2 : ∀ b ∈ f2, b < 256)
    (hlen : f1.length = f2.length)
    (hsame : ∀ i < f1.length,
      (i % w = 0 → f1.getD i 0 / 2 = f2.getD i 0 / 2) ∧
      (i % w ≠ 0 → f1.getD i 0 = f2.getD i 0)) :
    readSampleValues f1 w true = readSampleValues f2 w true := by
  unfold readSampleValues
  rw [hlen]
  apply List.map_congr_left
  intro i hi
  simp only [chunkStarts, List.mem_map, List.mem_range] at hi
  obtain ⟨m, hm, rfl⟩ := hi
  simp only [if_pos]
  congr 1
  apply ext_getD
  · rw [maskChunk_length, maskChunk_length]
    simp [hlen]
  intro k
  rw [maskChunk_getD, maskChunk_getD, chunk_getD, chunk_getD, chunk_getD, chunk_getD]
  have hin0 : m * w < f1.length := hlen ▸ chunkStart_lt hw hm
  by_cases hk0 : k = 0
  · subst hk0
    rw [if_pos rfl, if_pos rfl, if_pos hw, if_pos hw]
    have hmod : (m * w + 0) % w = 0 := by
      simp [Nat.mul_mod_left]
    have heq2 := (hsame (m * w + 0) (by omega)).1 hmod
    rw [land254_eq _ (getD_lt_256 hb1 _), land254_eq _ (getD_lt_256 hb2 _), heq2]
  · rw [if_neg hk0, if_neg hk0]
    by_cases hkw : k < w
    · rw [if_pos hkw, if_pos hkw]
      by_cases hin : m * w + k < f1.length
      · have hmod : (m * w + k) % w ≠ 0 := by
          rw [Nat.mul_comm m w, Nat.mul_add_mod]
          rw [Nat.mod_eq_of_lt hkw]
          exact hk0
        exact (hsame (m * w + k) hin).2 hmod
      · rw [List.getD_eq_getElem?_getD, List.getElem?_eq_none (by omega),
          List.getD_eq_getElem?_getD, List.getElem?_eq_none (by omega)]
    · rw [if_neg hkw, if_neg hkw]

/-- Full selection invariance: the high-energy position selection agrees
on two buffers related as in `readSampleValues_masked_congr`. -/
theorem select_congr_core {f1 f2 : List Nat} {w : Nat}
    (hw : 0 < w)
    (hb1 : ∀ b ∈ f1, b < 256) (hb2 : ∀ b ∈ f2, b < 256)
    (hlen : f1.length = f2.length)
    (hsame : ∀ i < f1.length,
      (i % w = 0 → f1.getD i 0 / 2 = f2.getD i 0 / 2) ∧
      (i % w ≠ 0 → f1.getD i 0 = f2.getD i 0)) :
    selectHighEnergyPositions f1 w = selectHighEnergyPositions f2 w := by
  have hs : readSampleValues f1 w true = readSampleValues f2 w true :=
    readSampleValues_masked_congr hw hb1 hb2 hlen hsame
  have hc : highEnergyCandidates f1 w = highEnergyCandidates f2 w := by
    unfold highEnergyCandidates
    rw [hs]
  rw [select_eq_candidates, select_eq_candidates, hs, hc]

/-! ## Embedding loop characterization -/

/-- The embedding loop as a total function (meaningful when the bits do
not outnumber the positions). -/
def embedPure (w : Nat) : List Nat → List Nat → List Nat → List Nat
  | [], _, frames => frames
  | _ :: _, [], frames => frames
  | bit :: bits, p :: ps, frames =>
    embedPure w bits ps (frames.set (p * w) ((frames.getD (p * w) 0 &&& 254) ||| bit))

theorem embedLoop_eq_ok {w : Nat} :
    ∀ {bits ps : List Nat} (frames : List Nat), bits.length ≤ ps.length →
      embedLoop w bits ps frames = .ok (embedPure w bits ps frames) := by
  intro bits
  induction bits with
  | nil => intro ps frames _; cases ps <;> rfl
  | cons bit bits ih =>
    intro ps frames hlen
    cases ps with
    | nil => simp at hlen
    | cons p ps =>
      rw [embedLoop, embedPure]
      exact ih _ (by simpa using hlen)

theorem embedPure_length {w : Nat} :
    ∀ (bits ps frames : List Nat),
      (embedPure w bits ps frames).length = frames.length := by
  intro bits
  induction bits with
  | nil => intro ps frames; cases ps <;> rfl
  | cons bit bits ih =>
    intro ps frames
    cases ps with
    | nil => rfl
    | cons p ps =>
      rw [embedPure, ih]
      simp

theorem embedPure_bytes_lt {w : Nat} :
    ∀ (bits ps frames : List Nat), (∀ b ∈ frames, b < 256) →
      (∀ x ∈ bits, x < 2) → ∀ b ∈ embedPure w bits ps frames, b < 256 := by
  intro bits
  induction bits with
  | nil => intro ps frames hf _; cases ps <;> exact hf
  | cons bit bits ih =>
    intro ps frames hf hb
    cases ps with
    | nil => exact hf
    | cons p ps =>
      rw [embedPure]
      apply ih ps _ _ (fun x hx => hb x (List.mem_cons_of_mem _ hx))
      intro b hbm
      rcases mem_of_mem_set hbm with h | h
      · exact hf b h
      · subst h
        exact embed_byte_lt _ (getD_lt_256 hf _) _ (hb bit (List.mem_cons_self _ _))

/-- Bytes whose index is not one of the written byte positions are
unchanged by the embedding loop. -/
theorem embedPure_getD_untouched {w : Nat} :
    ∀ (bits ps frames : List Nat) (q : Nat),
      (∀ t < bits.length, ps.getD t 0 * w ≠ q) →
      (embedPure w bits ps frames).getD q 0 = frames.getD q 0 := by
  intro bits
  induction bits with
  | nil => intro ps frames q _; cases ps <;> rfl
  | cons bit bits ih =>
    intro ps frames q hne
    cases ps with
    | nil => rfl
    | cons p ps =>
      rw [embedPure, ih]
      · exact getD_set_ne frames _ _ (hne 0 (by simp))
      · intro t ht
        exact hne (t + 1) (by simpa using ht)

theorem getD_mem_take {l : List Nat} {n s : Nat} (hs : s < n) (hn : n ≤ l.length) :
    l.getD s 0 ∈ l.take n := by
  have hlt : s < (l.take n).length := by
    simp only [List.length_take]
    omega
  have heq : (l.take n).getD s 0 = l.getD s 0 := by
    rw [List.getD_eq_getElem?_getD, List.getD_eq_getElem?_getD,
      List.getElem?_take_of_lt hs]
  rw [← heq]
  exact getD_mem hlt 0

/-- The byte at the `t`-th written position carries the `t`-th bit ORed
onto the masked original byte. -/
theorem embedPure_getD_touched {w : Nat} (hw : 0 < w) :
    ∀ (bits ps frames : List Nat) (t : Nat), t < bits.length →
      bits.length ≤ ps.length →
      (ps.take bits.length).Nodup →
      ps.getD t 0 * w < frames.length →
      (embedPure w bits ps frames).getD (ps.getD t 0 * w) 0 =
        (frames.getD (ps.getD t 0 * w) 0 &&& 254) ||| bits.getD t 0 := by
  intro bits
  induction bits with
  | nil => intro ps frames t ht; simp at ht
  | cons bit bits ih =>
    intro ps frames t ht hlen hnd hbound
    cases ps with
    | nil => simp at hlen
    | cons p ps =>
      simp only [List.length_cons, List.take_succ_cons, List.nodup_cons] at ht hlen hnd
      cases t with
      | zero =>
        simp only [List.getD_cons_zero] at hbound ⊢
        rw [embedPure]
        rw [embedPure_getD_untouched]
        · rw [getD_set_self _ _ hbound]
        · intro s hs hc
          apply hnd.1
          have heq : ps.getD s 0 = p := Nat.eq_of_mul_eq_mul_right hw hc
          rw [← heq]
          exact getD_mem_take hs (by omega)
      | succ t =>
        simp only [List.getD_cons_succ] at hbound ⊢
        rw [embedPure]
        rw [ih ps _ t (by omega) (by omega) hnd.2]
        · congr 2
          refine getD_set_ne frames _ _ ?_
          intro hc
          apply hnd.1
          have heq : p = ps.getD t 0 := Nat.eq_of_mul_eq_mul_right hw hc
          rw [heq]
          exact getD_mem_take (by omega) (by omega)
        · rw [length_set_eq]
          exact hbound

/-! ## Extraction loop characterization -/

/-- The extraction loop expressed on the stream of LSBs it reads, rather
than on positions; `extractLoop` is exactly this composed with the
bit-read map. -/
def extractBits : List Nat → List Nat → List Nat → Except StegoErr (List Nat)
  | [], _, _ => .error "Delimiter not found. Wrong password or no hidden message."
  | b :: rest, collected, bitBuffer =>
    let bitBuffer := bitBuffer ++ [b]
    if bitBuffer.length = 8 then
      let collected := collected ++ [bitsToByte bitBuffer]
      if DELIMITER.isSuffixOf collected then
        .ok (collected.take (collected.length - DELIMITER.length))
      else
        extractBits rest collected []
    else
      extractBits rest collected bitBuffer

theorem extractLoop_eq_extractBits (frames : List Nat) (w : Nat) :
    ∀ (ps collected bitBuffer : List Nat),
      extractLoop frames w ps collected bitBuffer =
        extractBits (ps.map (fun p => frames.getD (p * w) 0 &&& 1))
          collected bitBuffer := by
  intro ps
  induction ps with
  | nil => intro collected bitBuffer; rfl
  | cons p ps ih =>
    intro collected bitBuffer
    rw [List.map_cons, extractLoop, extractBits]
    by_cases h8 : (bitBuffer ++ [frames.getD (p * w) 0 &&& 1]).length = 8
    · rw [if_pos h8, if_pos h8]
      by_cases hsuf : DELIMITER.isSuffixOf
          (collected ++ [bitsToByte (bitBuffer ++ [frames.getD (p * w) 0 &&& 1])])
      · rw [if_pos hsuf, if_pos hsuf]
      · rw [if_neg hsuf, if_neg hsuf, ih]
    · rw [if_neg h8, if_neg h8, ih]

/-- Processing the eight bits of one byte appends exactly that byte to the
collected buffer and performs one delimiter check. -/
theorem extractBits_byte {b : Nat} (hb : b < 256) (rest collected : List Nat) :
    extractBits (byteToBits b ++ rest) collected [] =
      (if DELIMITER.isSuffixOf (collected ++ [b]) then
        .ok ((collected ++ [b]).take ((collected ++ [b]).length - DELIMITER.length))
      else
        extractBits rest (collected ++ [b]) []) := by
  have hbb : bitsToByte (byteToBits b) = b := bitsToByte_byteToBits b hb
  simp only [byteToBits, List.map_cons, List.map_nil] at hbb ⊢
  simp only [List.cons_append, List.nil_append]
  rw [extractBits]
  simp only [List.nil_append, List.length_cons, List.length_nil]
  rw [if_neg (by omega)]
  rw [extractBits]
  simp only [List.cons_append, List.nil_append, List.length_cons, List.length_nil]
  rw [if_neg (by omega)]
  rw [extractBits]
  simp only [List.cons_append, List.nil_append, List.length_cons, List.length_nil]
  rw [if_neg (by omega)]
  rw [extractBits]
  simp only [List.cons_append, List.nil_append, List.length_cons, List.length_nil]
  rw [if_neg (by omega)]
  rw [extractBits]
  simp only [List.cons_append, List.nil_append, List.length_cons, List.length_nil]
  rw [if_neg (by omega)]
  rw [extractBits]
  simp only [List.cons_append, List.nil_append, List.length_cons, List.length_nil]
  rw [if_neg (by omega)]
  rw [extractBits]
  simp only [List.cons_append, List.nil_append, List.length_cons, List.length_nil]
  rw [if_neg (by omega)]
  rw [extractBits]
  simp only [List.cons_append, List.nil_append, List.length_cons, List.length_nil]
  simp only [if_true]
  rw [hbb]

/-- Whenever the delimiter scan on the byte stream succeeds, the bit-level
extraction of that stream (followed by anything) returns the same result. -/
theorem extractBits_of_scanGo :
    ∀ (B : List Nat), (∀ b ∈ B, b < 256) →
      ∀ (collected rest : List Nat) (res : List Nat),
        scanGo B collected = .ok res →
        extractBits (bytesToBits B ++ rest) collected [] = .ok res := by
  intro B
  induction B with
  | nil =>
    intro _ collected rest res hres
    exact absurd hres (by simp [scanGo])
  | cons b bs ih =>
    intro hb collected rest res hres
    rw [bytesToBits_cons, List.append_assoc,
      extractBits_byte (hb b (List.mem_cons_self _ _))]
    rw [scanGo] at hres
    by_cases hsuf : DELIMITER.isSuffixOf (collected ++ [b])
    · rw [if_pos hsuf]
      simp only [if_pos hsuf] at hres
      exact hres
    · rw [if_neg hsuf]
      simp only [if_neg hsuf] at hres
      exact ih (fun x hx => hb x (List.mem_cons_of_mem _ hx)) _ rest res hres

/-- If no proper byte-prefix of `full` ends with the delimiter, then the
scan consumes all of `full` and returns it stripped of its last
`DELIMITER.length` bytes (provided `full` itself ends with the delimiter). -/
theorem scanGo_clean :
    ∀ (bs pre full : List Nat), pre ++ bs = full → bs ≠ [] →
      DELIMITER.isSuffixOf full →
      (∀ k, pre.length < k → k < full.length → ¬ DELIMITER.isSuffixOf (full.take k)) →
      scanGo bs pre = .ok (full.take (full.length - DELIMITER.length)) := by
  intro bs
  induction bs with
  | nil => intro pre full _ hne _ _; exact absurd rfl hne
  | cons b bs ih =>
    intro pre full hfull hne hsuf hclean
    rw [scanGo]
    cases bs with
    | nil =>
      rw [if_pos (hfull ▸ hsuf), hfull]
    | cons b2 bs2 =>
      have htake : full.take (pre.length + 1) = pre ++ [b] := by
        rw [← hfull, List.take_append_eq_append_take,
          List.take_of_length_le (by omega), Nat.add_sub_cancel_left]
        rfl
      have hlt : pre.length + 1 < full.length := by
        rw [← hfull]
        simp only [List.length_append, List.length_cons]
        omega
      have hnsuf : ¬ DELIMITER.isSuffixOf (pre ++ [b]) := by
        rw [← htake]
        exact hclean (pre.length + 1) (by omega) hlt
      rw [if_neg hnsuf]
      apply ih (pre ++ [b]) full
      · rw [List.append_assoc]
        exact hfull
      · simp
      · exact hsuf
      · intro k hk hk2
        apply hclean k _ hk2
        simp only [List.length_append, List.length_cons, List.length_nil] at hk
        omega

/-! ## The keyed sequence -/

/-- The seed value derived for a valid password (the value of
`_derive_embedding_seed` on the success path). -/
def embedSeedOf (password : String) : Nat :=
  beNat (pbkdf2HmacSha256 (utf8Bytes password) EMBED_KDF_SALT EMBED_KDF_ITERATIONS)

theorem deriveEmbeddingSeed_ok {password : String} (h : ValidPassword password) :
    deriveEmbeddingSeed password = .ok (embedSeedOf password) := by
  unfold deriveEmbeddingSeed
  rw [validatePassword_ok h]
  rfl

theorem iterKeyedPositions_ok {positions : List Nat} {password : String}
    (hne : positions ≠ []) (hpw : ValidPassword password) :
    iterKeyedPositions positions password =
      .ok (keyedSeq (embedSeedOf password) positions) := by
  unfold iterKeyedPositions
  rw [if_neg hne, deriveEmbeddingSeed_ok hpw]
  rfl

theorem keyedSeq_perm (seed : Nat) (positions : List Nat) :
    List.Perm (keyedSeq seed positions) positions := by
  unfold keyedSeq
  exact pyShuffle_perm _ _

theorem keyedSeq_length (seed : Nat) (positions : List Nat) :
    (keyedSeq seed positions).length = positions.length :=
  (keyedSeq_perm seed positions).length_eq

/-! ## Auxiliary facts for the correspondence -/

theorem sampwidth_pos {w : Nat} (h : w ∈ SUPPORTED_SAMPLE_WIDTHS) : 0 < w := by
  have hall : ∀ x ∈ SUPPORTED_SAMPLE_WIDTHS, 0 < x := by decide
  exact hall w h

theorem readWaveCheck_ok_elim {params : WavParams}
    (h : readWaveCheck params = .ok ()) :
    params.sampwidth ∈ SUPPORTED_SAMPLE_WIDTHS ∧ params.comptype = "NONE" ∧
      params.nframes ≠ 0 := by
  unfold readWaveCheck at h
  split at h
  next h1 => exact absurd h (by simp)
  next h1 =>
    split at h
    next h2 => exact absurd h (by simp)
    next h2 =>
      split at h
      next h3 => exact absurd h (by simp)
      next h3 => exact ⟨not_not.mp h1, not_not.mp h2, h3⟩

theorem readWaveCheck_ok_intro {params : WavParams}
    (h1 : params.sampwidth ∈ SUPPORTED_SAMPLE_WIDTHS)
    (h2 : params.comptype = "NONE") (h3 : params.nframes ≠ 0) :
    readWaveCheck params = .ok () := by
  unfold readWaveCheck
  rw [if_neg (not_not.mpr h1), if_neg (not_not.mpr h2), if_neg h3]

theorem bytesToBits_lt {B : List Nat} : ∀ x ∈ bytesToBits B, x < 2 := by
  intro x hx
  simp only [bytesToBits, List.mem_flatMap] at hx
  obtain ⟨b, _, hb⟩ := hx
  exact byteToBits_lt hb

theorem DELIMITER_bytes_lt : ∀ b ∈ DELIMITER, b < 256 := by decide

theorem getD_lt_2 {l : List Nat} (hb : ∀ x ∈ l, x < 2) (t : Nat) :
    l.getD t 0 < 2 := by
  by_cases h : t < l.length
  · exact hb _ (getD_mem h 0)
  · rw [List.getD_eq_getElem?_getD, List.getElem?_eq_none (by omega)]
    simp

theorem map_getD {f : Nat → Nat} {l : List Nat} {t : Nat} (h : t < l.length) :
    (l.map f).getD t 0 = f (l.getD t 0) := by
  rw [List.getD_eq_getElem?_getD, List.getD_eq_getElem?_getD, List.getElem?_map,
    List.getElem?_eq_getElem h]
  rfl

theorem take_getD {l : List Nat} {n t : Nat} (h : t < n) :
    (l.take n).getD t 0 = l.getD t 0 := by
  rw [List.getD_eq_getElem?_getD, List.getD_eq_getElem?_getD,
    List.getElem?_take_of_lt h]

/-! ## The hide/extract correspondence -/

/-- Core correspondence between `hide_data` and `extract_data`: under the
checked preconditions, hiding succeeds with the parameters passed through
unchanged, selection on the stego buffer reproduces the same eligible
positions (LSB-masking invariance), the same password rebuilds the same
keyed sequence, and extraction therefore returns whatever the delimiter
scan of the decoded byte stream `payload ++ DELIMITER` yields. -/
theorem hide_extract_core
    {params : WavParams} {frames payload : List Nat} {password : String}
    {ps : List Nat}
    (hpl : payload ≠ [])
    (hplb : ∀ b ∈ payload, b < 256)
    (hfb : ∀ b ∈ frames, b < 256)
    (hck : readWaveCheck params = .ok ())
    (hslots : (payload.length + DELIMITER.length) * 8 ≤
      params.nframes * params.nchannels)
    (hsel : selectHighEnergyPositions frames params.sampwidth = .ok ps)
    (hN : (payload.length + DELIMITER.length) * 8 ≤ ps.length)
    (hpw : ValidPassword password) :
    ∃ outFrames,
      hideData params frames payload password = .ok (params, outFrames) ∧
      outFrames.length = frames.length ∧
      selectHighEnergyPositions outFrames params.sampwidth = .ok ps ∧
      (∀ res, scanGo (payload ++ DELIMITER) [] = .ok res →
        extractData params outFrames password = .ok res) := by
  obtain ⟨hwmem, _, _⟩ := readWaveCheck_ok_elim hck
  have hw : 0 < params.sampwidth := sampwidth_pos hwmem
  have hfullb : ∀ b ∈ payload ++ DELIMITER, b < 256 := by
    intro b hb
    rcases List.mem_append.mp hb with h | h
    · exact hplb b h
    · exact DELIMITER_bytes_lt b h
  have hfulllen : (payload ++ DELIMITER).length =
      payload.length + DELIMITER.length := List.length_append _ _
  have hbitslen : (bytesToBits (payload ++ DELIMITER)).length =
      (payload.length + DELIMITER.length) * 8 := by
    rw [bytesToBits_length, hfulllen]
  have hbitslt : ∀ x ∈ bytesToBits (payload ++ DELIMITER), x < 2 := bytesToBits_lt
  have hpsne : ps ≠ [] := by
    intro hc
    rw [hc] at hN
    simp only [List.length_nil, Nat.le_zero] at hN
    have hdl : DELIMITER.length = 9 := rfl
    omega
  have hkperm : List.Perm (keyedSeq (embedSeedOf password) ps) ps :=
    keyedSeq_perm _ _
  have hklen : (keyedSeq (embedSeedOf password) ps).length = ps.length :=
    hkperm.length_eq
  have hknd : (keyedSeq (embedSeedOf password) ps).Nodup :=
    hkperm.nodup_iff.mpr (select_nodup hsel)
  have hbk : (bytesToBits (payload ++ DELIMITER)).length ≤
      (keyedSeq (embedSeedOf password) ps).length := by
    rw [hklen, hbitslen]
    exact hN
  have hembed : embedLoop params.sampwidth (bytesToBits (payload ++ DELIMITER))
      (keyedSeq (embedSeedOf password) ps) frames =
      .ok (embedPure params.sampwidth (bytesToBits (payload ++ DELIMITER))
        (keyedSeq (embedSeedOf password) ps) frames) :=
    embedLoop_eq_ok frames hbk
  set bits := bytesToBits (payload ++ DELIMITER) with hbitsdef
  set keyed := keyedSeq (embedSeedOf password) ps with hkdef
  set outFrames := embedPure params.sampwidth bits keyed frames with hodef
  have holen : outFrames.length = frames.length := embedPure_length _ _ _
  have hob : ∀ b ∈ outFrames, b < 256 := embedPure_bytes_lt _ _ _ hfb hbitslt
  have hbound : ∀ t < bits.length, keyed.getD t 0 * params.sampwidth < frames.length := by
    intro t ht
    have hmem : keyed.getD t 0 ∈ keyed := getD_mem (by omega) 0
    exact select_pos_bound hw hsel _ (hkperm.mem_iff.mp hmem)
  have hndtake : (keyed.take bits.length).Nodup :=
    List.Nodup.sublist (List.take_sublist _ _) hknd
  have htouch : ∀ t < bits.length,
      outFrames.getD (keyed.getD t 0 * params.sampwidth) 0 =
        (frames.getD (keyed.getD t 0 * params.sampwidth) 0 &&& 254) |||
          bits.getD t 0 :=
    fun t ht =>
      embedPure_getD_touched hw bits keyed frames t ht hbk hndtake (hbound t ht)
  have hsame : ∀ i < outFrames.length,
      (i % params.sampwidth = 0 →
        outFrames.getD i 0 / 2 = frames.getD i 0 / 2) ∧
      (i % params.sampwidth ≠ 0 → outFrames.getD i 0 = frames.getD i 0) := by
    intro i _
    by_cases hex : ∃ t, t < bits.length ∧ keyed.getD t 0 * params.sampwidth = i
    · obtain ⟨t, ht, hteq⟩ := hex
      subst hteq
      refine ⟨fun _ => ?_, fun hmod => absurd (Nat.mul_mod_left _ _) hmod⟩
      rw [htouch t ht]
      exact embed_byte_div2 _ (getD_lt_256 hfb _) _ (getD_lt_2 hbitslt t)
    · push_neg at hex
      have huntouched := embedPure_getD_untouched bits keyed frames i
        (fun t ht => hex t ht)
      rw [← hodef] at huntouched
      exact ⟨fun _ => by rw [huntouched], fun _ => by rw [huntouched]⟩
  have hselout : selectHighEnergyPositions outFrames params.sampwidth = .ok ps := by
    rw [select_congr_core hw hob hfb holen hsame]
    exact hsel
  have hreq1 : ¬ (params.nframes * params.nchannels <
      (payload ++ DELIMITER).length * 8) := by
    rw [hfulllen]
    omega
  have hreq2 : ¬ (ps.length < (payload ++ DELIMITER).length * 8) := by
    rw [hfulllen]
    omega
  refine ⟨outFrames, ?_, holen, hselout, ?_⟩
  · unfold hideData
    rw [if_neg hpl, hck]
    simp only
    rw [if_neg hreq1, hsel]
    simp only
    rw [if_neg hreq2, iterKeyedPositions_ok hpsne hpw]
    simp only
    rw [← hkdef, ← hbitsdef, hembed]
  · intro res hres
    unfold extractData
    rw [hck]
    simp only
    rw [hselout]
    simp only
    rw [iterKeyedPositions_ok hpsne hpw]
    simp only
    rw [← hkdef, extractLoop_eq_extractBits]
    have hstream : keyed.map (fun p => outFrames.getD (p * params.sampwidth) 0 &&& 1) =
        bits ++ (keyed.drop bits.length).map
          (fun p => outFrames.getD (p * params.sampwidth) 0 &&& 1) := by
      conv_lhs => rw [← List.take_append_drop bits.length keyed]
      rw [List.map_append]
      congr 1
      apply ext_getD
      · simp only [List.length_map, List.length_take]
        omega
      intro t
      by_cases ht : t < bits.length
      · rw [map_getD (by simp only [List.length_take]; omega), take_getD ht,
          htouch t ht]
        exact embed_byte_lsb _ (getD_lt_256 hfb _) _ (getD_lt_2 hbitslt t)
      · rw [List.getD_eq_getElem?_getD,
          List.getElem?_eq_none (by simp only [List.length_map, List.length_take]; omega),
          List.getD_eq_getElem?_getD, List.getElem?_eq_none (by omega)]
    rw [hstream, hbitsdef]
    exact extractBits_of_scanGo (payload ++ DELIMITER) hfullb [] _ res hres

theorem delimiter_suffix (payload : List Nat) :
    DELIMITER.isSuffixOf (payload ++ DELIMITER) := by
  rw [List.isSuffixOf_iff_suffix]
  exact List.suffix_append _ _

theorem take_full_payload (payload : List Nat) :
    (payload ++ DELIMITER).take ((payload ++ DELIMITER).length - DELIMITER.length) =
      payload := by
  have hlen : (payload ++ DELIMITER).length - DELIMITER.length = payload.length := by
    rw [List.length_append]
    omega
  rw [hlen, List.take_append_eq_append_take, List.take_of_length_le (by omega),
    Nat.sub_self]
  simp

/-- With no delimiter inside a proper byte-prefix, the scan of
`payload ++ DELIMITER` returns exactly the payload. -/
theorem scanGo_full_payload (payload : List Nat)
    (hclean : ∀ k < (payload ++ DELIMITER).length,
      ¬ DELIMITER.isSuffixOf ((payload ++ DELIMITER).take k)) :
    scanGo (payload ++ DELIMITER) [] = .ok payload := by
  have h := scanGo_clean (payload ++ DELIMITER) [] (payload ++ DELIMITER)
    (by simp) (by simp [DELIMITER]) (delimiter_suffix payload)
    (fun k hk hk2 => hclean k hk2)
  rw [h, take_full_payload]

/-- A successful keyed-sequence derivation always yields a permutation of
the input positions (elimination form, for arbitrary results). -/
theorem iterKeyedPositions_ok_perm {positions keyed : List Nat}
    {password : String}
    (h : iterKeyedPositions positions password = .ok keyed) :
    List.Perm keyed positions := by
  unfold iterKeyedPositions at h
  by_cases hne : positions = []
  · rw [if_pos hne] at h
    exact absurd h (by simp)
  · rw [if_neg hne] at h
    cases hd : deriveEmbeddingSeed password with
    | error e => rw [hd] at h; exact absurd h (by simp [Except.map])
    | ok seed =>
      rw [hd] at h
      simp only [Except.map, Except.ok.injEq] at h
      rw [← h]
      exact keyedSeq_perm _ _

/-- The exact success value of `hide_data` under the checked
preconditions: parameters pass through, and the output buffer is the
embedding of the payload-plus-delimiter bits along the keyed sequence. -/
theorem hideData_ok_eq
    {params : WavParams} {frames payload : List Nat} {password : String}
    {ps : List Nat}
    (hpl : payload ≠ [])
    (hck : readWaveCheck params = .ok ())
    (hslots : (payload.length + DELIMITER.length) * 8 ≤
      params.nframes * params.nchannels)
    (hsel : selectHighEnergyPositions frames params.sampwidth = .ok ps)
    (hN : (payload.length + DELIMITER.length) * 8 ≤ ps.length)
    (hpw : ValidPassword password) :
    hideData params frames payload password =
      .ok (params, embedPure params.sampwidth (bytesToBits (payload ++ DELIMITER))
        (keyedSeq (embedSeedOf password) ps) frames) := by
  have hfulllen : (payload ++ DELIMITER).length =
      payload.length + DELIMITER.length := List.length_append _ _
  have hpsne : ps ≠ [] := by
    intro hc
    rw [hc] at hN
    simp only [List.length_nil, Nat.le_zero] at hN
    have hdl : DELIMITER.length = 9 := rfl
    omega
  have hbk : (bytesToBits (payload ++ DELIMITER)).length ≤
      (keyedSeq (embedSeedOf password) ps).length := by
    rw [keyedSeq_length, bytesToBits_length, hfulllen]
    exact hN
  have hreq1 : ¬ (params.nframes * params.nchannels <
      (payload ++ DELIMITER).length * 8) := by
    rw [hfulllen]
    omega
  have hreq2 : ¬ (ps.length < (payload ++ DELIMITER).length * 8) := by
    rw [hfulllen]
    omega
  unfold hideData
  rw [if_neg hpl, hck]
  simp only
  rw [if_neg hreq1, hsel]
  simp only
  rw [if_neg hreq2, iterKeyedPositions_ok hpsne hpw]
  simp only
  rw [embedLoop_eq_ok frames hbk]

end SonicCipher

deriving instance DecidableEq for Except

namespace SonicCipher

set_option maxRecDepth 100000

/-! ## Concrete fixtures used by witnesses and counterexamples -/

/-- A mono 8-bit 160-frame container. -/
def sampleParams : WavParams := ⟨1, 1, 44100, 160, "NONE"⟩

/-- 160 zero bytes of frame data (every sample decodes to -128, so every
position is eligible). -/
def sampleFrames : List Nat := List.replicate 160 0

/-! ## More helpers: capacity elimination and slot accounting -/

theorem calculateCapacity_ok_elim {params : WavParams} {frames : List Nat}
    {c : Int} (h : calculateCapacity params frames = .ok c) :
    readWaveCheck params = .ok () ∧
    ∃ ps, selectHighEnergyPositions frames params.sampwidth = .ok ps ∧
      c = max 0 (((ps.length / 8 : Nat) : Int) - (DELIMITER.length : Int)) := by
  unfold calculateCapacity at h
  cases hck : readWaveCheck params with
  | error e => rw [hck] at h; exact absurd h (by simp)
  | ok u =>
    cases u
    rw [hck] at h
    simp only at h
    cases hsel : selectHighEnergyPositions frames params.sampwidth with
    | error e => rw [hsel] at h; exact absurd h (by simp)
    | ok ps =>
      rw [hsel] at h
      simp only [Except.ok.injEq] at h
      exact ⟨rfl, ps, rfl, h.symm⟩

theorem candidates_length_le (frames : List Nat) (w : Nat) :
    (highEnergyCandidates frames w).length ≤ (frames.length + w - 1) / w := by
  unfold highEnergyCandidates
  apply le_trans (List.length_filter_le _ _)
  rw [List.length_range, List.length_map, readSampleValues_length]

theorem exact_chunks {a w : Nat} (hw : 0 < w) : (a * w + w - 1) / w = a := by
  apply Nat.le_antisymm
  · have hlt : a * w + w - 1 < (a + 1) * w := by
      rw [Nat.succ_mul]
      omega
    exact Nat.lt_succ_iff.mp ((Nat.div_lt_iff_lt_mul hw).mpr hlt)
  · exact (Nat.le_div_iff_mul_le hw).mpr (by omega)

/-! ## Claim theorems -/

/-- C2: the keyed permutation generator is deterministic.  Two independent
derivations — each validating the password, re-deriving the seed, and
shuffling a fresh copy of the eligible positions with a freshly seeded
generator — produce identical sequences whenever the password and the
eligible-position list agree.  (In this pure embedding each run is the
same function of its inputs; the embedding reflects that the source seeds
a private `random.Random(seed)` per call and shares no generator state.) -/
theorem c2_permutation_deterministic (positions1 positions2 : List Nat)
    (password1 password2 : String)
    (hpos : positions1 = positions2) (hpw : password1 = password2) :
    iterKeyedPositions positions1 password1 =
      iterKeyedPositions positions2 password2 := by
  rw [hpos, hpw]

theorem c2_witness :
    iterKeyedPositions [0, 1, 2] "password123" =
      iterKeyedPositions [0, 1, 2] "password123" :=
  c2_permutation_deterministic [0, 1, 2] [0, 1, 2] "password123" "password123"
    rfl rfl

/-- C3 (counterexample): the code's keyed sequence is NOT the forward
Fisher–Yates shuffle the spec describes.  On the two eligible positions
`[0, 1]` the two algorithms disagree for every possible draw of the
shared seeded generator, hence in particular for the seed derived from
the password "password123". -/
theorem keyedSeq_ne_specKeyedSeq_pair (seed a b : Nat) (hab : a ≠ b) :
    specKeyedSeq seed [a, b] ≠ keyedSeq seed [a, b] := by
  unfold keyedSeq specKeyedSeq
  simp only [List.length_cons, List.length_nil, Nat.zero_add]
  intro hc
  exact pyShuffle_ne_fwd_pair (mtFromSeed seed) a b hab hc.symm

theorem c3_counterexample :
    specIterKeyedPositions [0, 1] "password123" ≠
      iterKeyedPositions [0, 1] "password123" := by
  have hpw : ValidPassword "password123" := by decide
  have hne : ([0, 1] : List Nat) ≠ [] := by decide
  have hspec : specIterKeyedPositions [0, 1] "password123" =
      .ok (specKeyedSeq (embedSeedOf "password123") [0, 1]) := by
    unfold specIterKeyedPositions
    rw [if_neg hne, deriveEmbeddingSeed_ok hpw]
    rfl
  rw [hspec, iterKeyedPositions_ok hne hpw]
  intro hc
  simp only [Except.ok.injEq] at hc
  exact keyedSeq_ne_specKeyedSeq_pair (embedSeedOf "password123") 0 1
    (by decide) hc

/-- C3 (amended): the permutation is produced by the DESCENDING
Fisher–Yates shuffle of CPython's `random.shuffle` — for `i` from `N-1`
down to `1`, draw `j` uniformly below `i+1` with the seeded generator and
swap positions `i` and `j` — and the code's literal loop-and-yield over
the shuffled copy equals that reference recursion for every seed. -/
theorem c3_amended_descending (seed : Nat) (positions : List Nat) :
    (pyShuffle (mtFromSeed seed) positions).1 =
      (fisherYatesDown (mtFromSeed seed) positions (positions.length - 1)).1 := by
  rw [pyShuffle_eq_fisherYatesDown]

/-- C4: eligibility selection is independent of embedded bits.  Two frame
buffers of equal length whose bytes differ at most in bit 0 of the first
byte of each sample-width chunk select exactly the same high-energy
positions. -/
theorem c4_selection_lsb_invariant (f1 f2 : List Nat) (w : Nat)
    (hw : 0 < w)
    (hb1 : ∀ b ∈ f1, b < 256) (hb2 : ∀ b ∈ f2, b < 256)
    (hlen : f1.length = f2.length)
    (hsame : ∀ i < f1.length,
      (i % w = 0 → f1.getD i 0 / 2 = f2.getD i 0 / 2) ∧
      (i % w ≠ 0 → f1.getD i 0 = f2.getD i 0)) :
    selectHighEnergyPositions f1 w = selectHighEnergyPositions f2 w :=
  select_congr_core hw hb1 hb2 hlen hsame

theorem c4_witness :
    selectHighEnergyPositions [5, 7] 2 = selectHighEnergyPositions [4, 7] 2 :=
  c4_selection_lsb_invariant [5, 7] [4, 7] 2 (by decide) (by decide) (by decide)
    (by decide) (by decide)

/-- C5: for every valid carrier, capacity equals
`max(0, floor(N/8) - len(DELIMITER))` where `N` is the number of selected
high-energy positions, and is therefore non-negative. -/
theorem c5_capacity_formula (params : WavParams) (frames ps : List Nat)
    (hck : readWaveCheck params = .ok ())
    (hsel : selectHighEnergyPositions frames params.sampwidth = .ok ps) :
    calculateCapacity params frames =
      .ok (max 0 (((ps.length / 8 : Nat) : Int) - (DELIMITER.length : Int))) ∧
    ∀ c : Int, calculateCapacity params frames = .ok c → 0 ≤ c := by
  have hcap : calculateCapacity params frames =
      .ok (max 0 (((ps.length / 8 : Nat) : Int) - (DELIMITER.length : Int))) := by
    unfold calculateCapacity
    rw [hck]
    simp only
    rw [hsel]
  refine ⟨hcap, ?_⟩
  intro c hc
  rw [hcap] at hc
  simp only [Except.ok.injEq] at hc
  rw [← hc]
  exact le_max_left 0 _

theorem c5_witness :
    calculateCapacity ⟨1, 2, 8000, 1, "NONE"⟩ [0, 0] =
      .ok (max 0 ((([0].length / 8 : Nat) : Int) - (DELIMITER.length : Int))) ∧
    ∀ c : Int, calculateCapacity ⟨1, 2, 8000, 1, "NONE"⟩ [0, 0] = .ok c → 0 ≤ c :=
  c5_capacity_formula ⟨1, 2, 8000, 1, "NONE"⟩ [0, 0] [0] (by decide) (by decide)

/-- C6 (counterexample): degenerate all-zero audio does NOT fail
selection.  On eight zero bytes at sample width 2 every decoded magnitude
is 0, the percentile threshold is 0, and every index meets it, so
selection succeeds with all positions eligible — contradicting the
claimed CapacityError on all-zero audio. -/
theorem c6_counterexample :
    selectHighEnergyPositions (List.replicate 8 0) 2 = .ok [0, 1, 2, 3] := by
  decide

/-- C6 (amended): for a positive sample width, high-energy selection fails
exactly when the frame buffer decodes to no samples, i.e. when it is
empty.  The percentile threshold is itself one of the sample magnitudes,
so the no-sample-clears-threshold branch is unreachable; in particular
all-zero audio succeeds with every position eligible. -/
theorem c6_amended_error_iff (frames : List Nat) (w : Nat) (hw : 0 < w) :
    (∃ e, selectHighEnergyPositions frames w = .error e) ↔ frames = [] :=
  select_error_iff frames w hw

theorem c6_witness :
    ((∃ e, selectHighEnergyPositions [] 1 = .error e) ↔ ([] : List Nat) = []) :=
  c6_amended_error_iff [] 1 (by decide)

/-- C7: `hide_data` is atomic with respect to its output: in the write
trace model a failing call (CapacityError, FormatError, or any other
error) performs no write at all, and a successful call performs exactly
one write of the completed container after the embedding loop has
finished on the in-memory buffer. -/
theorem c7_no_partial_writes (params : WavParams) (frames payload : List Nat)
    (password : String) :
    ((∃ e, hideData params frames payload password = .error e) →
      hideWrites params frames payload password = []) ∧
    (∀ out, hideData params frames payload password = .ok out →
      hideWrites params frames payload password = [out]) := by
  unfold hideWrites
  constructor
  · intro ⟨e, he⟩
    rw [he]
  · intro out hout
    rw [hout]

theorem c7_witness :
    hideWrites sampleParams sampleFrames [] "password123" = [] :=
  (c7_no_partial_writes sampleParams sampleFrames [] "password123").1
    ⟨"Payload must be non-empty bytes.", rfl⟩

/-- C9: for every non-empty eligible-position list and valid password the
keyed position sequence succeeds and is a permutation of the eligible
positions — it yields every eligible position exactly as often as it
occurs (hence, the positions being distinct, exactly once) and yields
nothing else. -/
theorem c9_keyed_bijection (positions : List Nat) (password : String)
    (hne : positions ≠ []) (hpw : ValidPassword password) :
    ∃ keyed, iterKeyedPositions positions password = .ok keyed ∧
      List.Perm keyed positions :=
  ⟨keyedSeq (embedSeedOf password) positions,
    iterKeyedPositions_ok hne hpw, keyedSeq_perm _ _⟩

theorem c9_witness :
    ∃ keyed, iterKeyedPositions [0, 1, 2] "password123" = .ok keyed ∧
      List.Perm keyed [0, 1, 2] :=
  c9_keyed_bijection [0, 1, 2] "password123" (by decide) (by decide)

/-- C10: buffer accesses are in bounds and the position iterator is never
exhausted prematurely: every selected position addresses a byte inside
the frame buffer (`p * sampwidth < len(frames)`), the keyed sequence has
exactly as many entries as there are eligible positions, and whenever the
bits to embed do not outnumber them the embedding loop runs to completion
(returning the embedded buffer rather than the exhaustion error). -/
theorem c10_memory_safety (frames : List Nat) (w : Nat) (ps : List Nat)
    (hw : 0 < w)
    (hsel : selectHighEnergyPositions frames w = .ok ps) :
    (∀ p ∈ ps, p * w < frames.length) ∧
    (∀ (password : String) (keyed : List Nat),
      iterKeyedPositions ps password = .ok keyed →
      keyed.length = ps.length ∧
      ∀ (bits fr : List Nat), bits.length ≤ keyed.length →
        embedLoop w bits keyed fr = .ok (embedPure w bits keyed fr)) := by
  refine ⟨select_pos_bound hw hsel, ?_⟩
  intro password keyed hk
  refine ⟨(iterKeyedPositions_ok_perm hk).length_eq, ?_⟩
  intro bits fr hblen
  exact embedLoop_eq_ok fr hblen

theorem c10_witness :
    (∀ p ∈ [0, 1, 2, 3], p * 2 < (List.replicate 8 (0 : Nat)).length) ∧
    (∀ (password : String) (keyed : List Nat),
      iterKeyedPositions [0, 1, 2, 3] password = .ok keyed →
      keyed.length = [0, 1, 2, 3].length ∧
      ∀ (bits fr : List Nat), bits.length ≤ keyed.length →
        embedLoop 2 bits keyed fr = .ok (embedPure 2 bits keyed fr)) :=
  c10_memory_safety (List.replicate 8 0) 2 [0, 1, 2, 3] (by decide) (by decide)

/-- C1 (counterexample): the round-trip fails for a payload that itself
ends with the delimiter.  Hiding the 9-byte payload `b"###END###"` in a
160-sample carrier with capacity 11 ≥ 9 succeeds, but extraction with the
same password stops at the first delimiter match — after the first 9
collected bytes — and returns the empty byte string instead of the
payload. -/
theorem c1_counterexample :
    (hideData sampleParams sampleFrames DELIMITER "password123").map
        (fun out => extractData sampleParams out.2 "password123") =
      .ok (.ok ([] : List Nat)) ∧ ([] : List Nat) ≠ DELIMITER := by
  obtain ⟨out, h1, _, _, h4⟩ :=
    @hide_extract_core sampleParams sampleFrames DELIMITER "password123"
      (List.range 160) (by decide) (by decide) (by decide) (by decide)
      (by decide) (by decide) (by decide) (by decide)
  refine ⟨?_, by decide⟩
  rw [h1]
  simp only [Except.map]
  rw [h4 [] (by decide)]

/-- C1 (amended): the round-trip holds for every non-empty payload whose
framed form contains no early delimiter: if no proper byte-prefix of
`payload ++ DELIMITER` ends with the delimiter, then for every valid
carrier (well-formed buffer, valid container parameters) with
`capacity ≥ len(payload)` and every valid password, extracting from the
hidden file returns exactly the payload. -/
theorem c1_roundtrip_amended (params : WavParams)
    (frames payload : List Nat) (password : String) (c : Int)
    (hpl : payload ≠ [])
    (hplb : ∀ b ∈ payload, b < 256)
    (hfb : ∀ b ∈ frames, b < 256)
    (hwf : frames.length = params.nframes * params.nchannels * params.sampwidth)
    (hcap : calculateCapacity params frames = .ok c)
    (hc : (payload.length : Int) ≤ c)
    (hpw : ValidPassword password)
    (hclean : ∀ k < (payload ++ DELIMITER).length,
      ¬ DELIMITER.isSuffixOf ((payload ++ DELIMITER).take k)) :
    ∃ outFrames,
      hideData params frames payload password = .ok (params, outFrames) ∧
      extractData params outFrames password = .ok payload := by
  obtain ⟨hck, ps, hsel, hcval⟩ := calculateCapacity_ok_elim hcap
  obtain ⟨hwmem, _, _⟩ := readWaveCheck_ok_elim hck
  have hw : 0 < params.sampwidth := sampwidth_pos hwmem
  have hdl : DELIMITER.length = 9 := rfl
  have hplpos : 1 ≤ payload.length := List.length_pos.mpr hpl
  -- capacity ≥ len(payload) forces (len(payload) + 9) * 8 ≤ N
  have hN : (payload.length + DELIMITER.length) * 8 ≤ ps.length := by
    rcases le_or_lt (((ps.length / 8 : Nat) : Int) - (DELIMITER.length : Int)) 0
      with hneg | hpos
    · rw [hcval, max_eq_left hneg] at hc
      omega
    · rw [hcval, max_eq_right hpos.le] at hc
      have h8 : payload.length + DELIMITER.length ≤ ps.length / 8 := by
        omega
      have := (Nat.le_div_iff_mul_le (by omega : 0 < 8)).mp h8
      omega
  -- a well-formed buffer has exactly nframes * nchannels samples
  have hslots : (payload.length + DELIMITER.length) * 8 ≤
      params.nframes * params.nchannels := by
    have hle : ps.length ≤ (frames.length + params.sampwidth - 1) /
        params.sampwidth := by
      rw [(select_ok_elim hsel).1]
      exact candidates_length_le frames params.sampwidth
    rw [hwf, exact_chunks hw] at hle
    omega
  obtain ⟨out, h1, _, _, h4⟩ :=
    hide_extract_core hpl hplb hfb hck hslots hsel hN hpw
  exact ⟨out, h1, h4 payload (scanGo_full_payload payload hclean)⟩

theorem c1_witness :
    ∃ outFrames,
      hideData sampleParams sampleFrames [65] "password123" =
        .ok (sampleParams, outFrames) ∧
      extractData sampleParams outFrames "password123" = .ok [65] :=
  c1_roundtrip_amended sampleParams sampleFrames [65] "password123" 11
    (by decide) (by decide) (by decide) (by decide) (by decide) (by decide)
    (by decide) (by decide)

/-- C8: a successful hide changes the input frame bytes only in bit 0 of
the first byte of the samples at the consumed permuted positions — every
other byte, and bits 1–7 of the written bytes, are unchanged — and the
output container carries the original parameters record unchanged. -/
theorem c8_frame_effect (params : WavParams)
    (frames payload : List Nat) (password : String) (ps : List Nat)
    (hpl : payload ≠ [])
    (hfb : ∀ b ∈ frames, b < 256)
    (hck : readWaveCheck params = .ok ())
    (hslots : (payload.length + DELIMITER.length) * 8 ≤
      params.nframes * params.nchannels)
    (hsel : selectHighEnergyPositions frames params.sampwidth = .ok ps)
    (hN : (payload.length + DELIMITER.length) * 8 ≤ ps.length)
    (hpw : ValidPassword password) :
    ∃ (outFrames used : List Nat),
      hideData params frames payload password = .ok (params, outFrames) ∧
      outFrames.length = frames.length ∧
      used.Nodup ∧
      used.length = (payload.length + DELIMITER.length) * 8 ∧
      (∀ p ∈ used, p ∈ ps) ∧
      (∀ i < frames.length,
        (i ∉ used.map (· * params.sampwidth) →
          outFrames.getD i 0 = frames.getD i 0) ∧
        (i ∈ used.map (· * params.sampwidth) →
          outFrames.getD i 0 / 2 = frames.getD i 0 / 2)) := by
  have hwmem := (readWaveCheck_ok_elim hck).1
  have hw : 0 < params.sampwidth := sampwidth_pos hwmem
  have h1 := hideData_ok_eq hpl hck hslots hsel hN hpw
  have hkperm : List.Perm (keyedSeq (embedSeedOf password) ps) ps :=
    keyedSeq_perm _ _
  have hknd : (keyedSeq (embedSeedOf password) ps).Nodup :=
    hkperm.nodup_iff.mpr (select_nodup hsel)
  have hfulllen : (payload ++ DELIMITER).length =
      payload.length + DELIMITER.length := List.length_append _ _
  have hbitslen : (bytesToBits (payload ++ DELIMITER)).length =
      (payload.length + DELIMITER.length) * 8 := by
    rw [bytesToBits_length, hfulllen]
  have hbitslt : ∀ x ∈ bytesToBits (payload ++ DELIMITER), x < 2 := bytesToBits_lt
  have hbk : (bytesToBits (payload ++ DELIMITER)).length ≤
      (keyedSeq (embedSeedOf password) ps).length := by
    rw [hkperm.length_eq, hbitslen]
    exact hN
  set bits := bytesToBits (payload ++ DELIMITER) with hbitsdef
  set keyed := keyedSeq (embedSeedOf password) ps with hkdef
  set used := keyed.take bits.length with hudef
  have hul : used.length = (payload.length + DELIMITER.length) * 8 := by
    rw [hudef, List.length_take, hbitslen, min_eq_left (hbitslen ▸ hbk)]
  have hund : used.Nodup := List.Nodup.sublist (List.take_sublist _ _) hknd
  have humem : ∀ p ∈ used, p ∈ ps := fun p hp =>
    hkperm.mem_iff.mp (List.mem_of_mem_take hp)
  have hbound : ∀ t < bits.length,
      keyed.getD t 0 * params.sampwidth < frames.length := by
    intro t ht
    have hmem : keyed.getD t 0 ∈ keyed := getD_mem (by omega) 0
    exact select_pos_bound hw hsel _ (hkperm.mem_iff.mp hmem)
  have hndtake : (keyed.take bits.length).Nodup :=
    List.Nodup.sublist (List.take_sublist _ _) hknd
  refine ⟨embedPure params.sampwidth bits keyed frames, used, h1,
    embedPure_length _ _ _, hund, hul, humem, ?_⟩
  intro i hi
  constructor
  · intro hnot
    apply embedPure_getD_untouched
    intro t ht hc
    apply hnot
    rw [← hc]
    exact List.mem_map_of_mem _ (getD_mem_take ht (by omega))
  · intro hin
    obtain ⟨p, hpu, hpw2⟩ := List.mem_map.mp hin
    obtain ⟨t, htl, hteq⟩ := List.mem_iff_getElem.mp hpu
    have htb : t < bits.length := by
      rw [hul] at htl
      rw [hbitslen]
      exact htl
    have hgd : used.getD t 0 = p := by
      rw [List.getD_eq_getElem?_getD, List.getElem?_eq_getElem htl]
      exact congrArg (fun o => Option.getD o 0) (congrArg some hteq)
    have hgd2 : keyed.getD t 0 = p := by
      rw [← hgd, hudef, take_getD htb]
    rw [← hpw2, ← hgd2]
    rw [embedPure_getD_touched hw bits keyed frames t htb hbk hndtake
      (hbound t htb)]
    exact embed_byte_div2 _ (getD_lt_256 hfb _) _ (getD_lt_2 hbitslt t)

theorem c8_witness :
    ∃ (outFrames used : List Nat),
      hideData sampleParams sampleFrames [65] "password123" =
        .ok (sampleParams, outFrames) ∧
      outFrames.length = sampleFrames.length ∧
      used.Nodup ∧
      used.length = (([65] : List Nat).length + DELIMITER.length) * 8 ∧
      (∀ p ∈ used, p ∈ List.range 160) ∧
      (∀ i < sampleFrames.length,
        (i ∉ used.map (· * sampleParams.sampwidth) →
          outFrames.getD i 0 = sampleFrames.getD i 0) ∧
        (i ∈ used.map (· * sampleParams.sampwidth) →
          outFrames.getD i 0 / 2 = sampleFrames.getD i 0 / 2)) :=
  c8_frame_effect sampleParams sampleFrames [65] "password123" (List.range 160)
    (by decide) (by decide) (by decide) (by decide) (by decide) (by decide)
    (by decide)

end SonicCipher
